import Mathlib

set_option linter.unusedSectionVars false
set_option linter.unnecessarySimpa false

/-!
# Verification of the dependency-graph construction engine

This file gives a shallow embedding of the graph construction and
aggregation engine of the analyzed repository (`src/graph/builder.js`,
provided as `src/unnamed/part_015`) and proves properties of it.

Modelling conventions:

* JavaScript `Map` objects are modelled as association lists
  (`List (κ × β)`) with the exact insertion semantics of the source:
  `mapSet` overwrites the value stored under an existing key in place
  (keeping its position), `mapSetIfAbsent` models the
  `if (!m.has(k)) m.set(k, v)` pattern, and `mapValues` returns the
  values in insertion order, like `Array.from(m.values())`.
* JavaScript `Set` objects used for deduplication are modelled by
  `dedupByKey`, which keeps the first element for each key, exactly like
  the `if (!edgeKeys.has(k)) { push; add }` pattern of the source.
* String keys of the form `` `${from}->${to}` `` are modelled by the
  tuple `(from, to)`; the string concatenation is an injective encoding
  of that tuple for the identifiers produced by the engine.
* `crypto.createHash('sha256')....slice(-8)` is abstracted as a `hash`
  parameter `String → String`; the engine uses nothing about it beyond
  the shape of the identifiers it builds from it.
* `detectHierarchy` lives in the parser package and is specified by the
  spec only as an external collaborator; it is abstracted as a
  parameter `hier : String → HierarchyInfo`.
* Import resolution against the project's file set is abstracted in the
  builders as a parameter `resolve : String → String → Option String`
  (importing file path, import specifier ↦ resolved file path); the
  concrete resolver `resolveImportPath` and its alias cache are
  embedded separately for the claims that concern them.
-/

/-- Hierarchy levels of the engine (`'architecture' | 'module' | 'component'
| 'file' | 'interface'`). -/
inductive Level where
  | architecture
  | module
  | component
  | file
  | interface
deriving DecidableEq, Repr

/-- View modes (`'global' | 'focused' | 'neighbors'`). -/
inductive Mode where
  | global
  | focused
  | neighbors
deriving DecidableEq, Repr

/-- Edge kinds (`'import' | 'implement' | 'render' | 'use'`). -/
inductive EdgeType where
  | imp
  | implement
  | render
  | use
deriving DecidableEq, Repr

/-- Node / edge status values. -/
inductive Status where
  | normal
  | added
  | modified
  | removed
deriving DecidableEq, Repr

/-- Kinds of type definitions (`'interface' | 'type' | 'class' | 'enum'`). -/
inductive TKind where
  | iface
  | tydef
  | cls
  | enum
deriving DecidableEq, Repr

/-- Node variant tag (`'hierarchy' | 'abstract'`). -/
inductive NType where
  | hierarchy
  | abstract
deriving DecidableEq, Repr

/-- Result of `detectHierarchy` (external collaborator): the optional
architecture / module / component membership of a file path. -/
structure HierarchyInfo where
  architecture : Option String
  module : Option String
  component : Option String
deriving DecidableEq, Repr

/-- One import statement extracted from a file. -/
structure ImportInfo where
  importPath : String
  isTypeOnly : Bool
  isDynamic : Bool
deriving DecidableEq, Repr

/-- One `class … implements …` fact: the class name, the implemented
interface names, and the map from interface name to the import path it
was imported from (`interfacePaths`, a JS `Map`). -/
structure ImplementInfo where
  className : String
  interfaces : List String
  interfacePaths : List (String × String)
deriving DecidableEq, Repr

/-- One JSX render usage. -/
structure RenderInfo where
  componentName : String
  position : Nat
  isNamespaced : Bool
deriving DecidableEq, Repr

/-- One type definition extracted from a file.  Absent optional arrays of
the source are represented by `[]` (iterating them is a no-op either
way). -/
structure TypeDef where
  kind : TKind
  name : String
  isExported : Bool
  exts : List String
  impls : List String
  references : List String
deriving DecidableEq, Repr

/-- A parsed file: the input record the engine consumes. -/
structure ParsedFile where
  path : String
  imports : List ImportInfo
  implements : Option (List ImplementInfo)
  renders : Option (List RenderInfo)
  typeDefinitions : Option (List TypeDef)
deriving DecidableEq, Repr

/-- A graph node.  The source uses two object shapes discriminated by
`type`; both are represented in one structure with optional fields, as in
the untyped runtime objects (hierarchy nodes have `level`, abstract nodes
have `kind`, `name`, `isExported`). -/
structure Node where
  ntype : NType
  level : Option Level
  kind : Option TKind
  id : String
  path : String
  name : Option String
  isExported : Option Bool
  status : Status
deriving DecidableEq, Repr

/-- A graph edge; optional fields belong to the respective variants
(`symbolName`/`importPath` for implement and use edges, `position` for
render edges). -/
structure Edge where
  etype : EdgeType
  efrom : String
  eto : String
  status : Status
  symbolName : Option String
  importPath : Option String
  position : Option Nat
deriving DecidableEq, Repr

/-- A graph: node list and edge list, as returned by the engine. -/
structure Graph where
  nodes : List Node
  edges : List Edge
deriving DecidableEq, Repr

/-- The file changeset handed to `buildDiff`. -/
structure FileChanges where
  added : List String
  removed : List String
  modified : List String
deriving DecidableEq, Repr

/-- The summary block of a diff result. -/
structure DiffSummary where
  addedNodes : Nat
  removedNodes : Nat
  addedEdges : Nat
  removedEdges : Nat
  hasCircularDependency : Bool
  circularPaths : Option (List (List String))
deriving DecidableEq, Repr

/-- The result of `buildDiff`. -/
structure DiffResult where
  added : Graph
  removed : Graph
  modified : Graph
  summary : DiffSummary
deriving DecidableEq, Repr

/-- Options accepted by `buildGraph`; every field is optional, with the
defaults applied inside `buildGraph` (`?? 'file'`, `?? ['import']`,
`?? 'global'`, `?? 1`, `?? 'file'`). -/
structure BuildOptions where
  level : Option Level
  edgeTypes : Option (List EdgeType)
  mode : Option Mode
  focusPath : Option String
  neighborDepth : Option Nat
  internalLevel : Option Level
deriving DecidableEq, Repr

section MapModel

variable {κ : Type} {β : Type} [DecidableEq κ] [DecidableEq β]

/-- JS `Map.prototype.set`: if the key is present, replace its value in
place; otherwise append the new entry at the end. -/
def mapSet (m : List (κ × β)) (k : κ) (v : β) : List (κ × β) :=
  if (m.map Prod.fst).contains k then
    m.map (fun p => if p.1 = k then (k, v) else p)
  else
    m ++ [(k, v)]

/-- The `if (!m.has(k)) m.set(k, v)` insertion pattern. -/
def mapSetIfAbsent (m : List (κ × β)) (k : κ) (v : β) : List (κ × β) :=
  if (m.map Prod.fst).contains k then m else m ++ [(k, v)]

/-- JS `Map.prototype.get` (first entry wins; keys are unique in maps
built by `mapSet`). -/
def mapGet (m : List (κ × β)) (k : κ) : Option β :=
  (m.find? (fun p => p.1 = k)).map Prod.snd

/-- The keys of a map, in insertion order (`Map.prototype.keys`). -/
def mapKeys (m : List (κ × β)) : List κ :=
  m.map Prod.fst

/-- The values of a map, in insertion order
(`Array.from(m.values())`). -/
def mapValues (m : List (κ × β)) : List β :=
  m.map Prod.snd

/-- Fold a list of key/value pairs into a map with `mapSet`. -/
def mapSetAll (m : List (κ × β)) (ps : List (κ × β)) : List (κ × β) :=
  ps.foldl (fun acc p => mapSet acc p.1 p.2) m

/-- Fold a list of key/value pairs into a map with `mapSetIfAbsent`. -/
def mapSetAllIfAbsent (m : List (κ × β)) (ps : List (κ × β)) : List (κ × β) :=
  ps.foldl (fun acc p => mapSetIfAbsent acc p.1 p.2) m

/-- JS `Set.prototype.add` on a set represented as a duplicate-free list
in insertion order. -/
def setAdd (s : List κ) (k : κ) : List κ :=
  if s.contains k then s else s ++ [k]

/-- First-occurrence-wins deduplication of a list by a key function,
modelling the `if (!seen.has(key)) { out.push(x); seen.add(key) }`
pattern of the edge factories. -/
def dedupByKey (keyOf : β → κ) : List κ → List β → List β
  | _, [] => []
  | seen, x :: xs =>
    if seen.contains (keyOf x) then dedupByKey keyOf seen xs
    else x :: dedupByKey keyOf (keyOf x :: seen) xs

end MapModel

/-! ## JavaScript semantics helpers -/

/-- JS truthiness of an optional string: `undefined` and the empty string
are falsy. -/
def jsTruthy : Option String → Bool
  | none => false
  | some s => !(s == "")

/-- The JS pattern `s || null` on an optional string field: empty strings
collapse to null. -/
def orNull : Option String → Option String
  | none => none
  | some s => if s = "" then none else some s

/-- The JS pattern `a || b` on optional strings (first operand wins when
truthy). -/
def jsOr (a b : Option String) : Option String :=
  match a with
  | some s => if s = "" then b else some s
  | none => b

/-- Substring containment, modelling `String.prototype.includes`. -/
def strContains (needle hay : String) : Bool :=
  decide (needle.data <:+: hay.data)

/-- Suffix test, modelling `String.prototype.endsWith`. -/
def strEndsWith (s suffix : String) : Bool :=
  decide (suffix.data <:+ s.data)

/-- Prefix test, modelling `String.prototype.startsWith`. -/
def strStartsWith (s pre : String) : Bool :=
  decide (pre.data <+: s.data)

/-- Split a character list at every occurrence of a separator character
(`"a/b".split('/')` semantics: empty segments are kept). -/
def splitOnChar (c : Char) : List Char → List (List Char)
  | [] => [[]]
  | x :: xs =>
    let r := splitOnChar c xs
    if x = c then [] :: r
    else
      match r with
      | [] => [[x]]
      | h :: t => (x :: h) :: t

/-- String split on a separator character, modelling
`String.prototype.split` with a single-character separator. -/
def splitStr (s : String) (c : Char) : List String :=
  (splitOnChar c s.data).map (fun l => ⟨l⟩)

/-- The last path segment, modelling Node's `path.basename` (of a path
without trailing separator). -/
def basenameOf (p : String) : String :=
  (splitStr p '/').getLastD p

/-- Strip the extension from a base name, modelling
`path.basename(p, path.extname(p))`: the extension starts at the last
dot, unless that dot is the first character. -/
def stripExtension (b : String) : String :=
  let cs := b.data
  match ((List.range cs.length).filter (fun i => cs.getD i ' ' = '.')).getLast? with
  | some i => if i = 0 then b else ⟨cs.take i⟩
  | none => b

/-- Embeds `generateNodeId` (source lines 568-573): `file:` + basename without
extension + `-` + short hash of the path.  The SHA-256-suffix hash is
abstracted as the `hash` parameter. -/
def generateNodeId (hash : String → String) (filePath : String) : String :=
  "file:" ++ stripExtension (basenameOf filePath) ++ "-" ++ hash filePath

/-! ## File-level graph builder -/

/-- The file node created by `buildFileGraph` for one parsed file. -/
def nodeOfFile (hash : String → String) (f : ParsedFile) : Node :=
  { ntype := .hierarchy, level := some .file, kind := none,
    id := generateNodeId hash f.path, path := f.path,
    name := none, isExported := none, status := .normal }

/-- The `(nodeId, node)` insertions of the node map of
`buildFileGraph`. -/
def fileNodePairs (hash : String → String) (files : List ParsedFile) :
    List (String × Node) :=
  files.map (fun f => (generateNodeId hash f.path, nodeOfFile hash f))

/-- The `(path, nodeId)` insertions of `fileIdMap`. -/
def fileIdPairs (hash : String → String) (files : List ParsedFile) :
    List (String × String) :=
  files.map (fun f => (f.path, generateNodeId hash f.path))

/-- An import edge object (`{type:'import', from, to, status:'normal'}`). -/
def mkImportEdge (f t : String) : Edge :=
  { etype := .imp, efrom := f, eto := t, status := .normal,
    symbolName := none, importPath := none, position := none }

/-- Embeds `createImportEdges` (source lines 643-680), with import resolution
abstracted as `resolve`.  Unresolved or unknown targets are skipped (the
source additionally logs); edges are deduplicated first-wins by the
`(from, to)` pair (the source key string `from->to`). -/
def createImportEdges (resolve : String → String → Option String)
    (fileIdMap : List (String × String)) (files : List ParsedFile) :
    List Edge :=
  let candidates := files.flatMap (fun f =>
    match mapGet fileIdMap f.path with
    | none => []
    | some fromId =>
      f.imports.filterMap (fun imp =>
        (resolve f.path imp.importPath).bind (fun resolvedPath =>
          (mapGet fileIdMap resolvedPath).map (fun toId =>
            mkImportEdge fromId toId))))
  dedupByKey (fun e => (e.efrom, e.eto)) [] candidates

/-- Embeds `createImplementEdges` (source lines 693-740).  A missing (or, by JS
truthiness, empty) import path for an interface name means an intra-file
implementation and is skipped; edges are deduplicated first-wins by
`(from, to, symbolName)` (the source key `from->to:interfaceName`). -/
def createImplementEdges (resolve : String → String → Option String)
    (fileIdMap : List (String × String)) (files : List ParsedFile) :
    List Edge :=
  let candidates := files.flatMap (fun f =>
    match mapGet fileIdMap f.path with
    | none => []
    | some fromId =>
      (f.implements.getD []).flatMap (fun impl =>
        impl.interfaces.filterMap (fun interfaceName =>
          match mapGet impl.interfacePaths interfaceName with
          | none => none
          | some importPath =>
            if importPath = "" then none
            else
              (resolve f.path importPath).bind (fun resolvedPath =>
                (mapGet fileIdMap resolvedPath).map (fun toId =>
                  { etype := .implement, efrom := fromId, eto := toId,
                    status := .normal, symbolName := some interfaceName,
                    importPath := some importPath, position := none })))))
  dedupByKey (fun e => (e.efrom, e.eto, e.symbolName)) [] candidates

/-- Strip a `.ts/.tsx/.js/.jsx` extension, modelling the regex
`\.(ts|tsx|js|jsx)$` used when deriving component names. -/
def stripScriptExt (s : String) : String :=
  if strEndsWith s ".tsx" then ⟨s.data.take (s.data.length - 4)⟩
  else if strEndsWith s ".jsx" then ⟨s.data.take (s.data.length - 4)⟩
  else if strEndsWith s ".ts" then ⟨s.data.take (s.data.length - 3)⟩
  else if strEndsWith s ".js" then ⟨s.data.take (s.data.length - 3)⟩
  else s

/-- Embeds `createRenderEdges` (source lines 753-819): build a map from
potential component name (last import-path segment without extension) to
the import path, look up each render's base name, resolve, and
deduplicate first-wins by `(from, to, position)`. -/
def createRenderEdges (resolve : String → String → Option String)
    (fileIdMap : List (String × String)) (files : List ParsedFile) :
    List Edge :=
  let candidates := files.flatMap (fun f =>
    match mapGet fileIdMap f.path with
    | none => []
    | some fromId =>
      let componentImportMap := mapSetAll [] (f.imports.map (fun imp =>
        let lastPart := (splitStr imp.importPath '/').getLastD imp.importPath
        (stripScriptExt lastPart, imp.importPath)))
      (f.renders.getD []).filterMap (fun r =>
        let baseName := if r.isNamespaced
          then (splitStr r.componentName '.').headD r.componentName
          else r.componentName
        match jsOr (mapGet componentImportMap baseName)
            (mapGet componentImportMap r.componentName) with
        | none => none
        | some importPath =>
          if importPath = "" then none
          else
            (resolve f.path importPath).bind (fun resolvedPath =>
              (mapGet fileIdMap resolvedPath).map (fun toId =>
                { etype := .render, efrom := fromId, eto := toId,
                  status := .normal, symbolName := none,
                  importPath := none, position := some r.position }))))
  dedupByKey (fun e => (e.efrom, e.eto, e.position)) [] candidates

/-- The key under which `buildFileGraph` stores an edge in its edge map:
`import:from->to`, `implement:from->to`, `render:from->to:position`
(note that the implement key does not include the symbol name). -/
inductive FileEdgeKey where
  | imp (f t : String)
  | impl (f t : String)
  | rend (f t : String) (pos : Option Nat)
  | use (f t : String)
deriving DecidableEq, Repr

/-- The `buildFileGraph` edge-map key of an edge. -/
def fileEdgeKey (e : Edge) : FileEdgeKey :=
  match e.etype with
  | .imp => .imp e.efrom e.eto
  | .implement => .impl e.efrom e.eto
  | .render => .rend e.efrom e.eto e.position
  | .use => .use e.efrom e.eto

/-- Embeds `buildFileGraph` (source lines 308-354): one file node per input
file, then the outputs of the requested edge factories keyed by
`fileEdgeKey` (later insertions overwrite earlier ones with the same
key). -/
def buildFileGraph (hash : String → String)
    (resolve : String → String → Option String)
    (files : List ParsedFile) (edgeTypes : List EdgeType) : Graph :=
  let nodes := mapSetAll [] (fileNodePairs hash files)
  let fileIdMap := mapSetAll [] (fileIdPairs hash files)
  let importEdges :=
    if edgeTypes.contains .imp then createImportEdges resolve fileIdMap files else []
  let implementEdges :=
    if edgeTypes.contains .implement then createImplementEdges resolve fileIdMap files else []
  let renderEdges :=
    if edgeTypes.contains .render then createRenderEdges resolve fileIdMap files else []
  let edges := mapSetAll []
    ((importEdges ++ implementEdges ++ renderEdges).map (fun e => (fileEdgeKey e, e)))
  { nodes := mapValues nodes, edges := mapValues edges }

/-! ## Hierarchy-aggregated graph builder -/

/-- The string tag of a level used in parent node ids (`level:key`). -/
def levelTag : Level → String
  | .architecture => "architecture"
  | .module => "module"
  | .component => "component"
  | .file => "file"
  | .interface => "interface"

/-- Embeds `extractHierarchyKey` (source lines 372-390), including the JS
truthiness of the `||` / `&&` operators on the optional string fields. -/
def extractHierarchyKey (h : HierarchyInfo) (level : Level) : Option String :=
  match level with
  | .architecture => orNull h.architecture
  | .module => orNull h.module
  | .component =>
    match orNull h.module, orNull h.component with
    | some m, some c => some (m ++ "/" ++ c)
    | _, _ => orNull h.module
  | _ => none

/-- The parent node created for one hierarchy group. -/
def mkHierarchyNode (level : Level) (parentId key : String) : Node :=
  { ntype := .hierarchy, level := some level, kind := none,
    id := parentId, path := key, name := none, isExported := none,
    status := .normal }

/-- One file of step 1 of `buildHierarchyGraph`: files without a key at
the requested level are skipped; otherwise the parent node is created if
absent and the file is mapped to its parent. -/
def hierarchyStep (hier : String → HierarchyInfo) (level : Level)
    (acc : List (String × Node) × List (String × String)) (f : ParsedFile) :
    List (String × Node) × List (String × String) :=
  match extractHierarchyKey (hier f.path) level with
  | none => acc
  | some key =>
    let parentId := levelTag level ++ ":" ++ key
    (mapSetIfAbsent acc.1 parentId (mkHierarchyNode level parentId key),
     mapSet acc.2 f.path parentId)

/-- Step 1 of `buildHierarchyGraph`: fold over the files, building the
parent-node map and the `fileToParent` map. -/
def hierarchyStep1 (hier : String → HierarchyInfo) (level : Level)
    (files : List ParsedFile) :
    List (String × Node) × List (String × String) :=
  files.foldl (hierarchyStep hier level) ([], [])

/-- The aggregated-edge candidates of step 2 of `buildHierarchyGraph`:
one `((fromParent, toParent), edge)` pair per resolved import whose two
endpoint files both have a parent at the requested level and whose
parents differ. -/
def hierarchyEdgeCandidates (resolve : String → String → Option String)
    (fileToParent : List (String × String)) (files : List ParsedFile) :
    List ((String × String) × Edge) :=
  files.flatMap (fun f =>
    let fromParent := mapGet fileToParent f.path
    f.imports.filterMap (fun imp =>
      (resolve f.path imp.importPath).bind (fun resolvedPath =>
        match fromParent, mapGet fileToParent resolvedPath with
        | some fp, some tp =>
          if fp = tp then none else some ((fp, tp), mkImportEdge fp tp)
        | _, _ => none)))

/-- Embeds `buildHierarchyGraph` (source lines 395-455): only the aggregated
parent nodes and the deduplicated inter-group import edges are
returned. -/
def buildHierarchyGraph (hier : String → HierarchyInfo)
    (resolve : String → String → Option String)
    (files : List ParsedFile) (level : Level) : Graph :=
  let step1 := hierarchyStep1 hier level files
  let aggregatedEdges :=
    mapSetAllIfAbsent [] (hierarchyEdgeCandidates resolve step1.2 files)
  { nodes := mapValues step1.1, edges := mapValues aggregatedEdges }

/-! ## Interface-level graph builder -/

/-- The string tag of a type-definition kind. -/
def tkindTag : TKind → String
  | .iface => "interface"
  | .tydef => "type"
  | .cls => "class"
  | .enum => "enum"

/-- The node id of a type definition:
`` `${kind}:${name}-${generateShortHash(file.path)}` ``. -/
def typeNodeId (hash : String → String) (filePath : String) (td : TypeDef) :
    String :=
  tkindTag td.kind ++ ":" ++ td.name ++ "-" ++ hash filePath

/-- The abstract node created for one type definition. -/
def mkAbstractNode (hash : String → String) (filePath : String)
    (td : TypeDef) : Node :=
  { ntype := .abstract, level := none, kind := some td.kind,
    id := typeNodeId hash filePath td, path := filePath,
    name := some td.name, isExported := some td.isExported,
    status := .normal }

/-- The `(nodeId, node)` insertions of step 1 of
`buildInterfaceGraph`. -/
def typeNodePairs (hash : String → String) (files : List ParsedFile) :
    List (String × Node) :=
  files.flatMap (fun f =>
    (f.typeDefinitions.getD []).map (fun td =>
      (typeNodeId hash f.path td, mkAbstractNode hash f.path td)))

/-- The `(name, nodeId)` insertions of `typeNameToId` (last writer wins
on a name collision across files, as in the source). -/
def typeNamePairs (hash : String → String) (files : List ParsedFile) :
    List (String × String) :=
  files.flatMap (fun f =>
    (f.typeDefinitions.getD []).map (fun td =>
      (td.name, typeNodeId hash f.path td)))

/-- Keys of the interface-graph edge map: `extends:from->to`,
`implements:from->to`, `uses:from->to`. -/
inductive TypeEdgeKey where
  | ext (f t : String)
  | impl (f t : String)
  | uses (f t : String)
deriving DecidableEq, Repr

/-- An implement-kind edge of the interface graph (used for both
`extends` and `implements` relationships). -/
def mkTypeImplementEdge (f t sym : String) : Edge :=
  { etype := .implement, efrom := f, eto := t, status := .normal,
    symbolName := some sym, importPath := none, position := none }

/-- A use-kind edge of the interface graph. -/
def mkTypeUseEdge (f t sym : String) : Edge :=
  { etype := .use, efrom := f, eto := t, status := .normal,
    symbolName := some sym, importPath := none, position := none }

/-- Step 2 of `buildInterfaceGraph`: the keyed edge candidates, in
iteration order (extends, then implements, then references, per type
definition).  Unresolvable names are dropped; self-references are
skipped for use edges. -/
def typeEdgeCandidates (typeNameToId : List (String × String))
    (files : List ParsedFile) : List (TypeEdgeKey × Edge) :=
  files.flatMap (fun f =>
    (f.typeDefinitions.getD []).flatMap (fun td =>
      match mapGet typeNameToId td.name with
      | none => []
      | some fromId =>
        (td.exts.filterMap (fun ex =>
          (mapGet typeNameToId ex).map (fun toId =>
            (TypeEdgeKey.ext fromId toId, mkTypeImplementEdge fromId toId ex))))
        ++ (td.impls.filterMap (fun im =>
          (mapGet typeNameToId im).map (fun toId =>
            (TypeEdgeKey.impl fromId toId, mkTypeImplementEdge fromId toId im))))
        ++ (td.references.filterMap (fun r =>
          (mapGet typeNameToId r).bind (fun toId =>
            if toId = fromId then none
            else some (TypeEdgeKey.uses fromId toId, mkTypeUseEdge fromId toId r))))))

/-- Embeds `buildInterfaceGraph` (source lines 461-556). -/
def buildInterfaceGraph (hash : String → String)
    (files : List ParsedFile) : Graph :=
  let nodes := mapSetAll [] (typeNodePairs hash files)
  let typeNameToId := mapSetAll [] (typeNamePairs hash files)
  let edges := mapSetAllIfAbsent [] (typeEdgeCandidates typeNameToId files)
  { nodes := mapValues nodes, edges := mapValues edges }

/-! ## View filters -/

/-- The node-path match of neighbors mode (source lines 248-254): exact
equality, suffix, or substring — combined as a plain disjunction. -/
def pathMatches (nodePath focusPath : String) : Bool :=
  nodePath == focusPath || strEndsWith nodePath focusPath ||
    strContains focusPath nodePath

/-- The seed nodes of neighbors mode: the nodes whose path matches the
focus key. -/
def seedsOf (g : Graph) (focusPath : String) : List Node :=
  g.nodes.filter (fun n => pathMatches n.path focusPath)

/-- Insert a neighbor into an adjacency map
(`if (!m.has(k)) m.set(k, new Set()); m.get(k).add(v)`). -/
def adjAdd (m : List (String × List String)) (k v : String) :
    List (String × List String) :=
  mapSet m k (setAdd ((mapGet m k).getD []) v)

/-- One round of the BFS of neighbors mode.  The state is
`(includedNodeIds, currentLevel)`; both outgoing and incoming neighbors
of the current frontier are added when not already included. -/
def bfsStep (outgoing incoming : List (String × List String))
    (st : List String × List String) : List String × List String :=
  st.2.foldl (fun acc nodeId =>
    let acc := ((mapGet outgoing nodeId).getD []).foldl
      (fun (a : List String × List String) dep =>
        if a.1.contains dep then a else (a.1 ++ [dep], a.2 ++ [dep])) acc
    ((mapGet incoming nodeId).getD []).foldl
      (fun (a : List String × List String) dep =>
        if a.1.contains dep then a else (a.1 ++ [dep], a.2 ++ [dep])) acc)
    (st.1, [])

/-- The BFS loop, one `bfsStep` per depth round. -/
def bfsLoop (outgoing incoming : List (String × List String)) :
    Nat → List String × List String → List String × List String
  | 0, st => st
  | n + 1, st => bfsLoop outgoing incoming n (bfsStep outgoing incoming st)

/-- The deduplicated id list of the seed nodes
(`new Set(focusNodes.map(n => n.id))`). -/
def focusIdsOf (g : Graph) (focusPath : String) : List String :=
  (seedsOf g focusPath).foldl (fun s n => setAdd s n.id) []

/-- The outgoing and incoming adjacency maps built from the edge set. -/
def neighborAdj (g : Graph) :
    List (String × List String) × List (String × List String) :=
  g.edges.foldl
    (fun (acc : List (String × List String) × List (String × List String)) e =>
      (adjAdd acc.1 e.efrom e.eto, adjAdd acc.2 e.eto e.efrom)) ([], [])

/-- The included node-id set after the BFS rounds of neighbors mode. -/
def neighborIncluded (g : Graph) (focusPath : String) (neighborDepth : Nat) :
    List String :=
  (bfsLoop (neighborAdj g).1 (neighborAdj g).2 neighborDepth
    (focusIdsOf g focusPath, focusIdsOf g focusPath)).1

/-- Embeds `filterGraphByNeighbors` (source lines 246-304). -/
def filterGraphByNeighbors (g : Graph) (focusPath : String)
    (neighborDepth : Nat) : Graph :=
  if (seedsOf g focusPath).isEmpty then { nodes := [], edges := [] }
  else
    { nodes := g.nodes.filter (fun n =>
        (neighborIncluded g focusPath neighborDepth).contains n.id),
      edges := g.edges.filter (fun e =>
        (neighborIncluded g focusPath neighborDepth).contains e.efrom &&
        (neighborIncluded g focusPath neighborDepth).contains e.eto) }

/-- The focus-file predicate of `buildFocusedGraph` (source lines
191-216), per focus level. -/
def focusMatch (hier : String → HierarchyInfo) (level : Level)
    (focusPath : String) (f : ParsedFile) : Bool :=
  let h := hier f.path
  match level with
  | .architecture => h.architecture == some focusPath
  | .module => h.module == some focusPath
  | .component =>
    match orNull h.module, orNull h.component with
    | some m, some c => (m ++ "/" ++ c == focusPath) || (c == focusPath)
    | _, _ => h.module == some focusPath
  | .file => strContains focusPath f.path || strEndsWith f.path focusPath
  | .interface => (f.typeDefinitions.getD []).any (fun td => td.name == focusPath)

/-- Embeds `buildFocusedGraph` (source lines 189-235): filter the input files by
the focus predicate, return an empty graph when none match, otherwise
rebuild at the internal level from the focus files only. -/
def buildFocusedGraph (hier : String → HierarchyInfo)
    (hash : String → String) (resolve : String → String → Option String)
    (files : List ParsedFile) (level : Level) (edgeTypes : List EdgeType)
    (focusPath : String) (internalLevel : Level) : Graph :=
  let focusFiles := files.filter (focusMatch hier level focusPath)
  if focusFiles.isEmpty then { nodes := [], edges := [] }
  else if internalLevel = .interface then buildInterfaceGraph hash focusFiles
  else buildFileGraph hash resolve focusFiles edgeTypes

/-- Embeds `buildGraph` (source lines 133-174): apply the option defaults,
dispatch on mode and level, and apply neighbors filtering when
requested.  The construction of `filePathMap` (lines 141-150) is
absorbed into the abstract `resolve` parameter. -/
def buildGraph (hier : String → HierarchyInfo) (hash : String → String)
    (resolve : String → String → Option String)
    (files : List ParsedFile) (options : BuildOptions) : Graph :=
  let level := options.level.getD .file
  let edgeTypes := options.edgeTypes.getD [.imp]
  let mode := options.mode.getD .global
  let focusPath := options.focusPath
  let neighborDepth := options.neighborDepth.getD 1
  if mode == .focused && jsTruthy focusPath then
    buildFocusedGraph hier hash resolve files level edgeTypes
      (focusPath.getD "") (options.internalLevel.getD .file)
  else
    let graph :=
      if level == .file then buildFileGraph hash resolve files edgeTypes
      else if level == .interface then buildInterfaceGraph hash files
      else buildHierarchyGraph hier resolve files level
    if mode == .neighbors && jsTruthy focusPath then
      filterGraphByNeighbors graph (focusPath.getD "") neighborDepth
    else graph

/-! ## Diff engine and cycle detection -/

/-- The key of the diff edge maps: `` `${e.type}:${e.from}->${e.to}` ``. -/
def diffEdgeKey (e : Edge) : EdgeType × String × String :=
  (e.etype, e.efrom, e.eto)

/-- The state of the cycle-detection DFS: the `visited` and `inStack`
sets and the collected cycles. -/
structure DfsState where
  visited : List String
  inStack : List String
  cycles : List (List String)
deriving DecidableEq, Repr

/-- The recursive `dfs` of `detectCircularDependenciesWithPaths` (source
lines 934-952).  The mutable `path` array is passed as a parameter (the
push/pop pair of the source makes each call see exactly the path from
the root to the current node); recursion is bounded by a fuel parameter
that strictly exceeds any possible recursion depth at the call site. -/
def dfsVisit (adj : List (String × List String)) :
    Nat → String → List String → DfsState → DfsState
  | 0, _, _, st => st
  | fuel + 1, node, path0, st =>
    let st := { st with visited := setAdd st.visited node,
                        inStack := setAdd st.inStack node }
    let path := path0 ++ [node]
    let st := ((mapGet adj node).getD []).foldl (fun s nb =>
      if s.visited.contains nb then
        if s.inStack.contains nb then
          { s with cycles :=
              s.cycles ++ [path.drop (path.findIdx (fun x => x == nb)) ++ [nb]] }
        else s
      else dfsVisit adj fuel nb path s) st
    { st with inStack := st.inStack.erase node }

/-- Embeds `detectCircularDependenciesWithPaths` (source lines 919-962): build
the adjacency list from the import-kind edges only, run the DFS from
every unvisited key, and report the collected cycles. -/
def detectCircularDependenciesWithPaths (edges : List Edge) :
    Bool × List (List String) :=
  let adjList := edges.foldl (fun m e =>
    if e.etype == .imp then
      mapSet m e.efrom (setAdd ((mapGet m e.efrom).getD []) e.eto)
    else m) []
  let fuel := 2 * edges.length + 1
  let st := (mapKeys adjList).foldl (fun st node =>
      if st.visited.contains node then st
      else dfsVisit adjList fuel node [] st)
    { visited := [], inStack := [], cycles := [] }
  (!st.cycles.isEmpty, st.cycles)

/-- The `fromPath && modifiedPaths.has(fromPath)` test of `buildDiff`
(JS truthiness of the optional path included). -/
def pathModified (p : Option String) (mods : List String) : Bool :=
  match p with
  | some s => if s = "" then false else mods.contains s
  | none => false

/-- Embeds `buildDiff` (source lines 828-912). -/
def buildDiff (oldGraph newGraph : Graph) (changes : FileChanges) :
    DiffResult :=
  let oldNodeMap := mapSetAll [] (oldGraph.nodes.map (fun n => (n.id, n)))
  let newNodeMap := mapSetAll [] (newGraph.nodes.map (fun n => (n.id, n)))
  let oldEdgeMap := mapSetAll [] (oldGraph.edges.map (fun e => (diffEdgeKey e, e)))
  let newEdgeMap := mapSetAll [] (newGraph.edges.map (fun e => (diffEdgeKey e, e)))
  let addedNodes := newNodeMap.filterMap (fun p =>
    if (mapKeys oldNodeMap).contains p.1 then none
    else some { p.2 with status := .added })
  let addedEdges := newEdgeMap.filterMap (fun p =>
    if (mapKeys oldEdgeMap).contains p.1 then none
    else some { p.2 with status := .added })
  let removedNodes := oldNodeMap.filterMap (fun p =>
    if (mapKeys newNodeMap).contains p.1 then none
    else some { p.2 with status := .removed })
  let removedEdges := oldEdgeMap.filterMap (fun p =>
    if (mapKeys newEdgeMap).contains p.1 then none
    else some { p.2 with status := .removed })
  let modifiedNodes := newNodeMap.filterMap (fun p =>
    if (mapKeys oldNodeMap).contains p.1 && changes.modified.contains p.2.path
    then some { p.2 with status := .modified } else none)
  let modifiedEdges := newEdgeMap.filterMap (fun p =>
    if (mapKeys oldEdgeMap).contains p.1 then
      let fromPath := (mapGet newNodeMap p.2.efrom).map Node.path
      let toPath := (mapGet newNodeMap p.2.eto).map Node.path
      if pathModified fromPath changes.modified ||
          pathModified toPath changes.modified then
        some { p.2 with status := .modified }
      else none
    else none)
  let circularInfo := detectCircularDependenciesWithPaths newGraph.edges
  { added := { nodes := addedNodes, edges := addedEdges },
    removed := { nodes := removedNodes, edges := removedEdges },
    modified := { nodes := modifiedNodes, edges := modifiedEdges },
    summary :=
      { addedNodes := addedNodes.length,
        removedNodes := removedNodes.length,
        addedEdges := addedEdges.length,
        removedEdges := removedEdges.length,
        hasCircularDependency := circularInfo.1,
        circularPaths :=
          if circularInfo.2.length > 0 then some circularInfo.2 else none } }

/-! ## Concrete import resolver and its alias cache

The resolver reads path aliases from the project's config file through a
module-level cache.  The filesystem/JSON part of `loadPathAliases`
(source lines 25-64) — locating `tsconfig.json`/`jsconfig.json` and
turning its `paths` entries into prefix/base-path pairs — is abstracted
as a pure function `configOf` of the project root; the cache variable
`pathAliasCache` is threaded explicitly as an `Option` state value. -/

/-- Very small model of POSIX `path.dirname`: the part before the last
separator, `"."` when there is none. -/
def dirnameOf (p : String) : String :=
  let segs := splitStr p '/' 
  match segs with
  | [] => "."
  | [_] => "."
  | _ =>
    let front := segs.dropLast
    if front.all (fun s => s = "") then "/"
    else String.intercalate "/" front

/-- Normalize a segment list: drop empty and `.` segments, resolve `..`
against the preceding segment. -/
def normalizeSegs (segs : List String) : List String :=
  segs.foldl (fun acc s =>
    if s = "" ∨ s = "." then acc
    else if s = ".." then acc.dropLast
    else acc ++ [s]) []

/-- Model of `path.resolve(dir, rel)` for an absolute `dir`: interpret
`rel` against `dir` and normalize. -/
def pathResolve (dir rel : String) : String :=
  if strStartsWith rel "/" then
    "/" ++ String.intercalate "/" (normalizeSegs (splitStr rel '/'))
  else
    "/" ++ String.intercalate "/" (normalizeSegs (splitStr (dir ++ "/" ++ rel) '/'))

/-- Model of `path.join(base, rel)` for an absolute `base`. -/
def pathJoin (base rel : String) : String :=
  "/" ++ String.intercalate "/" (normalizeSegs (splitStr (base ++ "/" ++ rel) '/'))

/-- An alias table: prefix patterns mapped to absolute base paths, in
config order. -/
def AliasMap := List (String × String)
deriving instance DecidableEq, Repr for AliasMap

/-- Embeds `loadPathAliases` (source lines 21-67) with the cache threaded
explicitly: when the cache is populated it is returned as is — the
`projectPath` argument is not consulted at all — otherwise the alias
table for `projectPath` is computed (abstracted as `configOf`) and
stored. -/
def loadPathAliases (configOf : String → AliasMap)
    (cache : Option AliasMap) (projectPath : String) :
    AliasMap × Option AliasMap :=
  match cache with
  | some aliases => (aliases, some aliases)
  | none =>
    let aliases := configOf projectPath
    (aliases, some aliases)

/-- The extension list tried by the resolver, in order. -/
def resolveExtensions : List String :=
  ["", ".ts", ".tsx", ".js", ".jsx", ".mts", ".cts", "/index.ts", "/index.js"]

/-- The file lookup of `resolveImportPath` (source lines 619-632): exact
match first, then each extension in order. -/
def lookupWithExtensions (filePathMap : List (String × String))
    (resolved : String) : Option String :=
  match mapGet filePathMap resolved with
  | some v => some v
  | none =>
    resolveExtensions.findSome? (fun ext => mapGet filePathMap (resolved ++ ext))

/-- Embeds `resolveImportPath` (source lines 588-633), with the alias cache
threaded explicitly.  Returns the resolved path (or `none`) together
with the cache state after the call. -/
def resolveImportPath (configOf : String → AliasMap)
    (cache : Option AliasMap) (fromFile importPath : String)
    (filePathMap : List (String × String)) (projectPath : Option String) :
    Option String × Option AliasMap :=
  if jsTruthy projectPath && !strStartsWith importPath "." && !strStartsWith importPath "/" then
    let loaded := loadPathAliases configOf cache (projectPath.getD "")
    match loaded.1.find? (fun pe => strStartsWith importPath pe.1) with
    | some pe =>
      let relativePath := ⟨importPath.data.drop pe.1.data.length⟩
      (lookupWithExtensions filePathMap (pathJoin pe.2 relativePath), loaded.2)
    | none => (none, loaded.2)
  else if strStartsWith importPath "." || strStartsWith importPath "/" then
    let resolved :=
      if strStartsWith importPath "/" then importPath
      else pathResolve (dirnameOf fromFile) importPath
    (lookupWithExtensions filePathMap resolved, cache)
  else (none, cache)

/-! ## Association-list lemmas -/

section MapLemmas

variable {κ : Type} {β : Type} [DecidableEq κ] [DecidableEq β]

/-- A pair list is coherent when equal keys always carry equal values
(the value is a function of the key on this list). -/
def Coherent (ps : List (κ × β)) : Prop :=
  ∀ p ∈ ps, ∀ q ∈ ps, p.1 = q.1 → p.2 = q.2

theorem Coherent.mono {ps qs : List (κ × β)} (hsub : ps ⊆ qs)
    (h : Coherent qs) : Coherent ps :=
  fun p hp q hq => h p (hsub hp) q (hsub hq)

theorem mem_mapSet_elim {m : List (κ × β)} {k : κ} {v : β} {p : κ × β}
    (h : p ∈ mapSet m k v) : p ∈ m ∨ p = (k, v) := by
  unfold mapSet at h
  split at h
  · rcases List.mem_map.1 h with ⟨q, hq, he⟩
    by_cases hk : q.1 = k
    · simp only [hk, if_pos] at he
      exact Or.inr he.symm
    · simp only [hk, if_neg, not_false_iff] at he
      exact Or.inl (he ▸ hq)
  · rcases List.mem_append.1 h with h' | h'
    · exact Or.inl h'
    · exact Or.inr (by simpa using h')

theorem self_mem_mapSet {m : List (κ × β)} {k : κ} {v : β} :
    (k, v) ∈ mapSet m k v := by
  unfold mapSet
  split
  · next hc =>
    have : k ∈ m.map Prod.fst := by simpa using hc
    rcases List.mem_map.1 this with ⟨q, hq, hqk⟩
    exact List.mem_map.2 ⟨q, hq, by simp [hqk]⟩
  · exact List.mem_append_right _ (by simp)

theorem mem_mapSet_intro {m : List (κ × β)} {k : κ} {v : β} {p : κ × β}
    (hp : p ∈ m) (hcoh : p.1 = k → p.2 = v) : p ∈ mapSet m k v := by
  by_cases hk : p.1 = k
  · have hpv : p = (k, v) := by
      rcases p with ⟨a, b⟩
      simp only at hk hcoh
      rw [hk, hcoh hk]
    rw [hpv]
    exact self_mem_mapSet
  · unfold mapSet
    split
    · exact List.mem_map.2 ⟨p, hp, by simp [hk]⟩
    · exact List.mem_append_left _ hp

theorem mem_mapSet_iff_coh {m : List (κ × β)} {q : κ × β} {p : κ × β}
    (hcoh : Coherent (m ++ [q])) :
    p ∈ mapSet m q.1 q.2 ↔ p ∈ m ∨ p = q := by
  constructor
  · intro h
    rcases mem_mapSet_elim h with h' | h'
    · exact Or.inl h'
    · exact Or.inr (by simpa using h')
  · rintro (h' | rfl)
    · refine mem_mapSet_intro h' (fun hk => ?_)
      exact hcoh p (List.mem_append_left _ h') q (by simp) hk
    · exact self_mem_mapSet

theorem mem_mapSetIfAbsent_iff_coh {m : List (κ × β)} {q : κ × β}
    {p : κ × β} (hcoh : Coherent (m ++ [q])) :
    p ∈ mapSetIfAbsent m q.1 q.2 ↔ p ∈ m ∨ p = q := by
  unfold mapSetIfAbsent
  split
  · next hc =>
    have hk : q.1 ∈ m.map Prod.fst := by simpa using hc
    rcases List.mem_map.1 hk with ⟨r, hr, hrk⟩
    have hq : q ∈ m := by
      have h2 : r.2 = q.2 :=
        hcoh r (List.mem_append_left _ hr) q (by simp) hrk
      have : r = q := by
        rcases r with ⟨a, b⟩
        rcases q with ⟨c, d⟩
        simp only at hrk h2
        rw [hrk, h2]
      exact this ▸ hr
    constructor
    · exact Or.inl
    · rintro (h | rfl)
      · exact h
      · exact hq
  · simp

theorem mem_mapSetIfAbsent_elim {m : List (κ × β)} {k : κ} {v : β}
    {p : κ × β} (h : p ∈ mapSetIfAbsent m k v) : p ∈ m ∨ p = (k, v) := by
  unfold mapSetIfAbsent at h
  split at h
  · exact Or.inl h
  · rcases List.mem_append.1 h with h' | h'
    · exact Or.inl h'
    · exact Or.inr (by simpa using h')

theorem mapKeys_mapSet_eq {m : List (κ × β)} {k : κ} {v : β} :
    mapKeys (mapSet m k v) =
      if (mapKeys m).contains k then mapKeys m else mapKeys m ++ [k] := by
  unfold mapSet mapKeys
  split
  · rw [List.map_map]
    refine List.map_congr_left (fun p _ => ?_)
    by_cases hk : p.1 = k <;> simp [hk]
  · simp

theorem mapKeys_mapSetIfAbsent_eq {m : List (κ × β)} {k : κ} {v : β} :
    mapKeys (mapSetIfAbsent m k v) =
      if (mapKeys m).contains k then mapKeys m else mapKeys m ++ [k] := by
  unfold mapSetIfAbsent mapKeys
  split
  · rfl
  · simp

theorem mapKeys_mapSet_nodup {m : List (κ × β)} {k : κ} {v : β}
    (h : (mapKeys m).Nodup) : (mapKeys (mapSet m k v)).Nodup := by
  rw [mapKeys_mapSet_eq]
  split
  · exact h
  · next hc =>
    have : k ∉ mapKeys m := by simpa using hc
    simp [List.nodup_append, h, this]

theorem mapKeys_mapSetIfAbsent_nodup {m : List (κ × β)} {k : κ} {v : β}
    (h : (mapKeys m).Nodup) : (mapKeys (mapSetIfAbsent m k v)).Nodup := by
  rw [mapKeys_mapSetIfAbsent_eq]
  split
  · exact h
  · next hc =>
    have : k ∉ mapKeys m := by simpa using hc
    simp [List.nodup_append, h, this]

theorem mem_mapKeys_mapSet {m : List (κ × β)} {k k' : κ} {v : β} :
    k' ∈ mapKeys (mapSet m k v) ↔ k' ∈ mapKeys m ∨ k' = k := by
  rw [mapKeys_mapSet_eq]
  split
  · next hc =>
    have : k ∈ mapKeys m := by simpa using hc
    constructor
    · exact Or.inl
    · rintro (h | rfl)
      · exact h
      · exact this
  · simp

theorem mem_mapKeys_mapSetIfAbsent {m : List (κ × β)} {k k' : κ} {v : β} :
    k' ∈ mapKeys (mapSetIfAbsent m k v) ↔ k' ∈ mapKeys m ∨ k' = k := by
  rw [mapKeys_mapSetIfAbsent_eq]
  split
  · next hc =>
    have : k ∈ mapKeys m := by simpa using hc
    constructor
    · exact Or.inl
    · rintro (h | rfl)
      · exact h
      · exact this
  · simp

theorem mem_mapSetAll_elim {ps m : List (κ × β)} {p : κ × β}
    (h : p ∈ mapSetAll m ps) : p ∈ m ∨ p ∈ ps := by
  induction ps generalizing m with
  | nil => exact Or.inl h
  | cons q ps ih =>
    rcases ih (by simpa [mapSetAll] using h) with h' | h'
    · rcases mem_mapSet_elim h' with h'' | h''
      · exact Or.inl h''
      · exact Or.inr (by simp [h''])
    · exact Or.inr (List.mem_cons_of_mem _ h')

theorem mem_mapSetAllIfAbsent_elim {ps m : List (κ × β)} {p : κ × β}
    (h : p ∈ mapSetAllIfAbsent m ps) : p ∈ m ∨ p ∈ ps := by
  induction ps generalizing m with
  | nil => exact Or.inl h
  | cons q ps ih =>
    rcases ih (by simpa [mapSetAllIfAbsent] using h) with h' | h'
    · rcases mem_mapSetIfAbsent_elim h' with h'' | h''
      · exact Or.inl h''
      · exact Or.inr (by simp [h''])
    · exact Or.inr (List.mem_cons_of_mem _ h')

theorem mem_mapKeys_mapSetAll {ps m : List (κ × β)} {k : κ} :
    k ∈ mapKeys (mapSetAll m ps) ↔ k ∈ mapKeys m ∨ k ∈ ps.map Prod.fst := by
  induction ps generalizing m with
  | nil => simp [mapSetAll]
  | cons q ps ih =>
    have : mapSetAll m (q :: ps) = mapSetAll (mapSet m q.1 q.2) ps := rfl
    rw [this, ih, mem_mapKeys_mapSet]
    simp
    tauto

theorem mem_mapKeys_mapSetAllIfAbsent {ps m : List (κ × β)} {k : κ} :
    k ∈ mapKeys (mapSetAllIfAbsent m ps) ↔
      k ∈ mapKeys m ∨ k ∈ ps.map Prod.fst := by
  induction ps generalizing m with
  | nil => simp [mapSetAllIfAbsent]
  | cons q ps ih =>
    have : mapSetAllIfAbsent m (q :: ps) =
        mapSetAllIfAbsent (mapSetIfAbsent m q.1 q.2) ps := rfl
    rw [this, ih, mem_mapKeys_mapSetIfAbsent]
    simp
    tauto

theorem mapKeys_mapSetAll_nodup {ps m : List (κ × β)}
    (h : (mapKeys m).Nodup) : (mapKeys (mapSetAll m ps)).Nodup := by
  induction ps generalizing m with
  | nil => exact h
  | cons q ps ih => exact ih (mapKeys_mapSet_nodup h)

theorem mapKeys_mapSetAllIfAbsent_nodup {ps m : List (κ × β)}
    (h : (mapKeys m).Nodup) : (mapKeys (mapSetAllIfAbsent m ps)).Nodup := by
  induction ps generalizing m with
  | nil => exact h
  | cons q ps ih => exact ih (mapKeys_mapSetIfAbsent_nodup h)

theorem mem_mapSetAll_iff {ps m : List (κ × β)} {p : κ × β}
    (hcoh : Coherent (m ++ ps)) :
    p ∈ mapSetAll m ps ↔ p ∈ m ∨ p ∈ ps := by
  induction ps generalizing m with
  | nil => simp [mapSetAll]
  | cons q ps ih =>
    have hstep : mapSetAll m (q :: ps) = mapSetAll (mapSet m q.1 q.2) ps := rfl
    have hsub : mapSet m q.1 q.2 ++ ps ⊆ m ++ q :: ps := by
      intro x hx
      rcases List.mem_append.1 hx with hx' | hx'
      · rcases mem_mapSet_elim hx' with h' | h'
        · exact List.mem_append_left _ h'
        · exact List.mem_append_right _ (by simp [h'])
      · exact List.mem_append_right _ (List.mem_cons_of_mem _ hx')
    have hcoh1 : Coherent (m ++ [q]) := by
      refine Coherent.mono ?_ hcoh
      intro x hx
      rcases List.mem_append.1 hx with hx' | hx'
      · exact List.mem_append_left _ hx'
      · have hxq : x = q := by simpa using hx'
        exact List.mem_append_right _ (by simp [hxq])
    rw [hstep, ih (Coherent.mono hsub hcoh), mem_mapSet_iff_coh hcoh1]
    simp
    tauto

theorem mem_mapSetAllIfAbsent_iff {ps m : List (κ × β)} {p : κ × β}
    (hcoh : Coherent (m ++ ps)) :
    p ∈ mapSetAllIfAbsent m ps ↔ p ∈ m ∨ p ∈ ps := by
  induction ps generalizing m with
  | nil => simp [mapSetAllIfAbsent]
  | cons q ps ih =>
    have hstep : mapSetAllIfAbsent m (q :: ps) =
        mapSetAllIfAbsent (mapSetIfAbsent m q.1 q.2) ps := rfl
    have hsub : mapSetIfAbsent m q.1 q.2 ++ ps ⊆ m ++ q :: ps := by
      intro x hx
      rcases List.mem_append.1 hx with hx' | hx'
      · rcases mem_mapSetIfAbsent_elim hx' with h' | h'
        · exact List.mem_append_left _ h'
        · exact List.mem_append_right _ (by simp [h'])
      · exact List.mem_append_right _ (List.mem_cons_of_mem _ hx')
    have hcoh1 : Coherent (m ++ [q]) := by
      refine Coherent.mono ?_ hcoh
      intro x hx
      rcases List.mem_append.1 hx with hx' | hx'
      · exact List.mem_append_left _ hx'
      · have hxq : x = q := by simpa using hx'
        exact List.mem_append_right _ (by simp [hxq])
    rw [hstep, ih (Coherent.mono hsub hcoh), mem_mapSetIfAbsent_iff_coh hcoh1]
    simp
    tauto

theorem mapGet_eq_some_mem {m : List (κ × β)} {k : κ} {v : β}
    (h : mapGet m k = some v) : (k, v) ∈ m := by
  unfold mapGet at h
  rcases Option.map_eq_some.1 h with ⟨p, hp, hv⟩
  have h1 := List.find?_some hp
  have h2 := List.mem_of_find?_eq_some hp
  have hk : p.1 = k := by simpa using h1
  have : p = (k, v) := by
    rcases p with ⟨a, b⟩
    simp only at hk hv
    rw [hk, hv]
  exact this ▸ h2

theorem mapGet_isSome_of_mem {m : List (κ × β)} {k : κ} {v : β}
    (h : (k, v) ∈ m) : ∃ w, mapGet m k = some w := by
  unfold mapGet
  have : (m.find? (fun p => p.1 = k)).isSome := by
    rw [List.find?_isSome]
    exact ⟨(k, v), h, by simp⟩
  rcases Option.isSome_iff_exists.1 this with ⟨p, hp⟩
  exact ⟨p.2, by rw [hp]; rfl⟩

theorem mapGet_eq_some_iff_coh {m : List (κ × β)} {k : κ} {v : β}
    (hcoh : Coherent m) : mapGet m k = some v ↔ (k, v) ∈ m := by
  constructor
  · exact mapGet_eq_some_mem
  · intro h
    rcases mapGet_isSome_of_mem h with ⟨w, hw⟩
    have hmem : (k, w) ∈ m := mapGet_eq_some_mem hw
    have : w = v := hcoh (k, w) hmem (k, v) h rfl
    rw [hw, this]

theorem mapGet_eq_none_iff {m : List (κ × β)} {k : κ} :
    mapGet m k = none ↔ k ∉ mapKeys m := by
  unfold mapGet mapKeys
  rw [Option.map_eq_none', List.find?_eq_none]
  constructor
  · intro h hk
    rcases List.mem_map.1 hk with ⟨p, hp, hpk⟩
    exact absurd (by simpa using hpk) (by simpa using h p hp)
  · intro h p hp
    simp only [decide_eq_true_eq]
    intro hpk
    exact h (List.mem_map.2 ⟨p, hp, hpk⟩)

theorem mem_mapValues {m : List (κ × β)} {v : β} :
    v ∈ mapValues m ↔ ∃ k, (k, v) ∈ m := by
  unfold mapValues
  rw [List.mem_map]
  constructor
  · rintro ⟨p, hp, hv⟩
    exact ⟨p.1, by rwa [show (p.1, v) = p from by rw [← hv]]⟩
  · rintro ⟨k, hk⟩
    exact ⟨(k, v), hk, rfl⟩

theorem mem_mapValues_built {ps : List (κ × β)} {v : β}
    (hcoh : Coherent ps) :
    v ∈ mapValues (mapSetAll [] ps) ↔ ∃ k, (k, v) ∈ ps := by
  rw [mem_mapValues]
  constructor
  · rintro ⟨k, hk⟩
    rcases mem_mapSetAll_elim hk with h | h
    · simp at h
    · exact ⟨k, h⟩
  · rintro ⟨k, hk⟩
    exact ⟨k, (mem_mapSetAll_iff (by simpa using hcoh)).2 (Or.inr hk)⟩

theorem mem_mapValues_built_ifAbsent {ps : List (κ × β)} {v : β}
    (hcoh : Coherent ps) :
    v ∈ mapValues (mapSetAllIfAbsent [] ps) ↔ ∃ k, (k, v) ∈ ps := by
  rw [mem_mapValues]
  constructor
  · rintro ⟨k, hk⟩
    rcases mem_mapSetAllIfAbsent_elim hk with h | h
    · simp at h
    · exact ⟨k, h⟩
  · rintro ⟨k, hk⟩
    exact ⟨k, (mem_mapSetAllIfAbsent_iff (by simpa using hcoh)).2 (Or.inr hk)⟩

theorem mapGet_built {ps : List (κ × β)} {k : κ} {v : β}
    (hcoh : Coherent ps) :
    mapGet (mapSetAll [] ps) k = some v ↔ (k, v) ∈ ps := by
  have hc : Coherent (mapSetAll [] ps) := by
    refine Coherent.mono (fun p hp => ?_) hcoh
    rcases mem_mapSetAll_elim hp with h | h
    · simp at h
    · exact h
  rw [mapGet_eq_some_iff_coh hc, mem_mapSetAll_iff (by simpa using hcoh)]
  simp

theorem countP_eq_ite_of_nodup {l : List κ} {K : κ} (h : l.Nodup) :
    l.countP (fun x => decide (x = K)) = if K ∈ l then 1 else 0 := by
  induction l with
  | nil => simp
  | cons a l ih =>
    rcases List.nodup_cons.1 h with ⟨ha, hl⟩
    by_cases hK : a = K
    · subst hK
      simp [List.countP_cons, ih hl, ha]
    · simp [List.countP_cons, ih hl, hK, Ne.symm hK]

theorem countP_mapValues_key {m : List (κ × β)} {f : β → κ} {K : κ}
    {P : β → Bool} (hnd : (mapKeys m).Nodup)
    (hshape : ∀ p ∈ m, p.1 = f p.2)
    (hP : ∀ v, P v = true ↔ f v = K) :
    (mapValues m).countP P = if K ∈ mapKeys m then 1 else 0 := by
  unfold mapValues
  rw [List.countP_map,
    List.countP_congr (q := fun p => decide (p.1 = K))
      (fun p hp => by simp [Function.comp, hP, hshape p hp]),
    show (fun (p : κ × β) => decide (p.1 = K)) =
      ((fun x => decide (x = K)) ∘ Prod.fst) from rfl,
    ← List.countP_map]
  exact countP_eq_ite_of_nodup hnd

theorem countP_mapValues_le_one {m : List (κ × β)} {f : β → κ} {K : κ}
    {P : β → Bool} (hnd : (mapKeys m).Nodup)
    (hshape : ∀ p ∈ m, p.1 = f p.2)
    (hPK : ∀ v, P v = true → f v = K) :
    (mapValues m).countP P ≤ 1 := by
  have h1 : (mapValues m).countP P ≤
      (mapValues m).countP (fun v => decide (f v = K)) :=
    List.countP_mono_left (fun v _ hv => by simp [hPK v hv])
  have h2 := countP_mapValues_key (m := m) (f := f) (K := K)
    (P := fun v => decide (f v = K)) hnd hshape (fun v => by simp)
  rw [h2] at h1
  split at h1
  · exact h1
  · exact h1.trans (by norm_num)

theorem dedupByKey_subset {keyOf : β → κ} {seen : List κ} {l : List β}
    {x : β} (h : x ∈ dedupByKey keyOf seen l) : x ∈ l := by
  induction l generalizing seen with
  | nil => simpa [dedupByKey] using h
  | cons b l ih =>
    unfold dedupByKey at h
    split at h
    · exact List.mem_cons_of_mem _ (ih h)
    · rcases List.mem_cons.1 h with h' | h'
      · exact h' ▸ List.mem_cons_self _ _
      · exact List.mem_cons_of_mem _ (ih h')

theorem dedupByKey_mem {keyOf : β → κ} {seen : List κ} {l : List β} {x : β}
    (hcoh : ∀ a ∈ l, ∀ b ∈ l, keyOf a = keyOf b → a = b)
    (hseen : keyOf x ∉ seen) (hx : x ∈ l) :
    x ∈ dedupByKey keyOf seen l := by
  induction l generalizing seen with
  | nil => simp at hx
  | cons b l ih =>
    unfold dedupByKey
    split
    · next hc =>
      rcases List.mem_cons.1 hx with rfl | hx'
      · exact absurd (by simpa using hc) hseen
      · exact ih (fun a ha c hc' => hcoh a (List.mem_cons_of_mem _ ha)
          c (List.mem_cons_of_mem _ hc')) hseen hx'
    · next hc =>
      rcases List.mem_cons.1 hx with rfl | hx'
      · exact List.mem_cons_self _ _
      · by_cases hk : keyOf x = keyOf b
        · have : x = b := hcoh x hx b (List.mem_cons_self _ _) hk
          exact this ▸ List.mem_cons_self _ _
        · refine List.mem_cons_of_mem _ (ih (fun a ha c hc' =>
            hcoh a (List.mem_cons_of_mem _ ha) c (List.mem_cons_of_mem _ hc'))
            ?_ hx')
          simp [hseen, hk]

theorem dedupByKey_nodup_keys {keyOf : β → κ} {seen : List κ} {l : List β} :
    ((dedupByKey keyOf seen l).map keyOf).Nodup ∧
      ∀ y ∈ dedupByKey keyOf seen l, keyOf y ∉ seen := by
  induction l generalizing seen with
  | nil => simp [dedupByKey]
  | cons b l ih =>
    unfold dedupByKey
    split
    · exact ih
    · next hc =>
      rcases @ih (keyOf b :: seen) with ⟨hnd, hdis⟩
      refine ⟨?_, ?_⟩
      · rw [List.map_cons, List.nodup_cons]
        refine ⟨fun hmem => ?_, hnd⟩
        rcases List.mem_map.1 hmem with ⟨y, hy, hyk⟩
        exact hdis y hy (by simp [hyk])
      · intro y hy
        rcases List.mem_cons.1 hy with rfl | hy'
        · simpa using hc
        · exact fun hmem => hdis y hy' (List.mem_cons_of_mem _ hmem)

theorem mem_setAdd {s : List κ} {k x : κ} :
    x ∈ setAdd s k ↔ x ∈ s ∨ x = k := by
  unfold setAdd
  split
  · next hc =>
    have hk : k ∈ s := by simpa using hc
    constructor
    · exact Or.inl
    · rintro (h | rfl)
      · exact h
      · exact hk
  · simp

theorem mem_foldl_setAdd {α : Type} (f : α → κ) (l : List α)
    (init : List κ) {x : κ} :
    x ∈ l.foldl (fun s a => setAdd s (f a)) init ↔
      x ∈ init ∨ ∃ a ∈ l, f a = x := by
  induction l generalizing init with
  | nil => simp
  | cons b l ih =>
    rw [List.foldl_cons, ih, mem_setAdd]
    simp
    tauto

end MapLemmas

/-! ## Builder characterization lemmas -/

theorem mem_mapKeys_iff {κ β : Type} [DecidableEq κ] [DecidableEq β]
    {m : List (κ × β)} {k : κ} : k ∈ mapKeys m ↔ ∃ v, (k, v) ∈ m := by
  unfold mapKeys
  rw [List.mem_map]
  constructor
  · rintro ⟨p, hp, hk⟩
    exact ⟨p.2, by rwa [show (k, p.2) = p from by rw [← hk]]⟩
  · rintro ⟨v, hv⟩
    exact ⟨(k, v), hv, rfl⟩

theorem string_append_cancel_left {a b c : String} (h : a ++ b = a ++ c) :
    b = c := by
  have := congrArg String.data h
  simp at this
  exact String.ext this

theorem nodeOfFile_congr {hash : String → String} {f g : ParsedFile}
    (h : f.path = g.path) : nodeOfFile hash f = nodeOfFile hash g := by
  simp [nodeOfFile, generateNodeId, h]

theorem mem_fileIdPairs {hash : String → String} {files : List ParsedFile}
    {p i : String} :
    (p, i) ∈ fileIdPairs hash files ↔
      (∃ f ∈ files, f.path = p) ∧ i = generateNodeId hash p := by
  unfold fileIdPairs
  rw [List.mem_map]
  constructor
  · rintro ⟨f, hf, he⟩
    have h1 : f.path = p := congrArg Prod.fst he
    have h2 : generateNodeId hash f.path = i := congrArg Prod.snd he
    exact ⟨⟨f, hf, h1⟩, by rw [← h2, h1]⟩
  · rintro ⟨⟨f, hf, hp⟩, hi⟩
    exact ⟨f, hf, by rw [hp, hi]⟩

theorem fileIdPairs_coherent {hash : String → String}
    {files : List ParsedFile} : Coherent (fileIdPairs hash files) := by
  intro p hp q hq hk
  rcases p with ⟨a, b⟩
  rcases q with ⟨c, d⟩
  simp only at hk
  subst hk
  rcases mem_fileIdPairs.1 hp with ⟨_, hb⟩
  rcases mem_fileIdPairs.1 hq with ⟨_, hd⟩
  simp only
  rw [hb, hd]

theorem mapGet_fileIdMap_some {hash : String → String}
    {files : List ParsedFile} {p i : String}
    (h : mapGet (mapSetAll [] (fileIdPairs hash files)) p = some i) :
    (∃ f ∈ files, f.path = p) ∧ i = generateNodeId hash p := by
  have := mapGet_eq_some_mem h
  rcases mem_mapSetAll_elim this with h' | h'
  · simp at h'
  · exact mem_fileIdPairs.1 h'

theorem mapGet_fileIdMap_of_mem {hash : String → String}
    {files : List ParsedFile} {f : ParsedFile} (hf : f ∈ files) :
    mapGet (mapSetAll [] (fileIdPairs hash files)) f.path =
      some (generateNodeId hash f.path) := by
  exact (mapGet_built fileIdPairs_coherent).2
    (mem_fileIdPairs.2 ⟨⟨f, hf, rfl⟩, rfl⟩)

theorem fileNodePairs_shape {hash : String → String}
    {files : List ParsedFile} {p : String × Node}
    (hp : p ∈ fileNodePairs hash files) : p.2.id = p.1 := by
  unfold fileNodePairs at hp
  rcases List.mem_map.1 hp with ⟨f, _, he⟩
  rw [← he]
  rfl

theorem mem_fileNodePairs {hash : String → String}
    {files : List ParsedFile} {p : String × Node} :
    p ∈ fileNodePairs hash files ↔
      ∃ f ∈ files, p = (generateNodeId hash f.path, nodeOfFile hash f) := by
  unfold fileNodePairs
  rw [List.mem_map]
  constructor
  · rintro ⟨f, hf, he⟩
    exact ⟨f, hf, he.symm⟩
  · rintro ⟨f, hf, he⟩
    exact ⟨f, hf, he.symm⟩

theorem buildFileGraph_node_exists {hash : String → String}
    {resolve : String → String → Option String} {files : List ParsedFile}
    {et : List EdgeType} {i : String}
    (h : ∃ f ∈ files, i = generateNodeId hash f.path) :
    ∃ n ∈ (buildFileGraph hash resolve files et).nodes, n.id = i := by
  rcases h with ⟨f, hf, rfl⟩
  have hkey : generateNodeId hash f.path ∈
      (fileNodePairs hash files).map Prod.fst := by
    unfold fileNodePairs
    rw [List.map_map]
    exact List.mem_map.2 ⟨f, hf, rfl⟩
  have hkeys : generateNodeId hash f.path ∈
      mapKeys (mapSetAll [] (fileNodePairs hash files)) :=
    mem_mapKeys_mapSetAll.2 (Or.inr hkey)
  rcases mem_mapKeys_iff.1 hkeys with ⟨v, hv⟩
  have hvp : (generateNodeId hash f.path, v) ∈ fileNodePairs hash files := by
    rcases mem_mapSetAll_elim hv with h' | h'
    · simp at h'
    · exact h'
  refine ⟨v, ?_, fileNodePairs_shape hvp⟩
  show v ∈ mapValues (mapSetAll [] (fileNodePairs hash files))
  exact mem_mapValues.2 ⟨_, hv⟩

/-- A graph has no dangling edges when every edge endpoint is the id of
some node of the same graph. -/
def noDanglingEdges (g : Graph) : Prop :=
  ∀ e ∈ g.edges,
    (∃ n ∈ g.nodes, n.id = e.efrom) ∧ (∃ n ∈ g.nodes, n.id = e.eto)

theorem createImportEdges_endpoints {resolve : String → String → Option String}
    {idMap : List (String × String)} {files : List ParsedFile} {e : Edge}
    (h : e ∈ createImportEdges resolve idMap files) :
    (∃ k, (k, e.efrom) ∈ idMap) ∧ (∃ k, (k, e.eto) ∈ idMap) := by
  have hc := dedupByKey_subset h
  rcases List.mem_flatMap.1 hc with ⟨f, _, hmem⟩
  rcases hfid : mapGet idMap f.path with _ | fromId
  · rw [hfid] at hmem
    simp at hmem
  · rw [hfid] at hmem
    rcases List.mem_filterMap.1 hmem with ⟨imp, _, heq⟩
    rcases Option.bind_eq_some.1 heq with ⟨rp, _, h2⟩
    rcases Option.map_eq_some.1 h2 with ⟨toId, htid, he⟩
    subst he
    exact ⟨⟨f.path, mapGet_eq_some_mem hfid⟩, ⟨rp, mapGet_eq_some_mem htid⟩⟩

theorem createImplementEdges_endpoints
    {resolve : String → String → Option String}
    {idMap : List (String × String)} {files : List ParsedFile} {e : Edge}
    (h : e ∈ createImplementEdges resolve idMap files) :
    (∃ k, (k, e.efrom) ∈ idMap) ∧ (∃ k, (k, e.eto) ∈ idMap) := by
  have hc := dedupByKey_subset h
  rcases List.mem_flatMap.1 hc with ⟨f, _, hmem⟩
  rcases hfid : mapGet idMap f.path with _ | fromId
  · rw [hfid] at hmem
    simp at hmem
  · rw [hfid] at hmem
    rcases List.mem_flatMap.1 hmem with ⟨impl, _, hmem2⟩
    rcases List.mem_filterMap.1 hmem2 with ⟨iname, _, heq⟩
    rcases hip : mapGet impl.interfacePaths iname with _ | ip
    · rw [hip] at heq
      simp at heq
    · rw [hip] at heq
      simp only at heq
      split at heq
      · simp at heq
      · rcases Option.bind_eq_some.1 heq with ⟨rp, _, h2⟩
        rcases Option.map_eq_some.1 h2 with ⟨toId, htid, he⟩
        subst he
        exact ⟨⟨f.path, mapGet_eq_some_mem hfid⟩, ⟨rp, mapGet_eq_some_mem htid⟩⟩

theorem createRenderEdges_endpoints
    {resolve : String → String → Option String}
    {idMap : List (String × String)} {files : List ParsedFile} {e : Edge}
    (h : e ∈ createRenderEdges resolve idMap files) :
    (∃ k, (k, e.efrom) ∈ idMap) ∧ (∃ k, (k, e.eto) ∈ idMap) := by
  have hc := dedupByKey_subset h
  rcases List.mem_flatMap.1 hc with ⟨f, _, hmem⟩
  rcases hfid : mapGet idMap f.path with _ | fromId
  · rw [hfid] at hmem
    simp at hmem
  · rw [hfid] at hmem
    rcases List.mem_filterMap.1 hmem with ⟨r, _, heq⟩
    simp only at heq
    split at heq
    · simp at heq
    · split at heq
      · simp at heq
      · rcases Option.bind_eq_some.1 heq with ⟨rp, _, h2⟩
        rcases Option.map_eq_some.1 h2 with ⟨toId, htid, he⟩
        subst he
        exact ⟨⟨f.path, mapGet_eq_some_mem hfid⟩, ⟨rp, mapGet_eq_some_mem htid⟩⟩

theorem buildFileGraph_noDangling {hash : String → String}
    {resolve : String → String → Option String} {files : List ParsedFile}
    {et : List EdgeType} :
    noDanglingEdges (buildFileGraph hash resolve files et) := by
  intro e he
  have he' : ∃ k, (k, e) ∈
      ((if et.contains .imp then
          createImportEdges resolve (mapSetAll [] (fileIdPairs hash files)) files
        else []) ++
       (if et.contains .implement then
          createImplementEdges resolve (mapSetAll [] (fileIdPairs hash files)) files
        else []) ++
       (if et.contains .render then
          createRenderEdges resolve (mapSetAll [] (fileIdPairs hash files)) files
        else [])).map (fun e => (fileEdgeKey e, e)) := by
    rcases mem_mapValues.1 he with ⟨k, hk⟩
    rcases mem_mapSetAll_elim hk with h' | h'
    · simp at h'
    · exact ⟨k, h'⟩
  rcases he' with ⟨k, hk⟩
  rcases List.mem_map.1 hk with ⟨e', he', heq⟩
  have hee : e' = e := congrArg Prod.snd heq
  subst hee
  have hend : (∃ p, (p, e'.efrom) ∈ mapSetAll [] (fileIdPairs hash files)) ∧
      (∃ p, (p, e'.eto) ∈ mapSetAll [] (fileIdPairs hash files)) := by
    rcases List.mem_append.1 he' with h' | h'
    · rcases List.mem_append.1 h' with h'' | h''
      · split at h''
        · exact createImportEdges_endpoints h''
        · simp at h''
      · split at h''
        · exact createImplementEdges_endpoints h''
        · simp at h''
    · split at h'
      · exact createRenderEdges_endpoints h'
      · simp at h'
  have hnode : ∀ i, (∃ p, (p, i) ∈ mapSetAll [] (fileIdPairs hash files)) →
      ∃ n ∈ (buildFileGraph hash resolve files et).nodes, n.id = i := by
    rintro i ⟨p, hp⟩
    have hp' : (p, i) ∈ fileIdPairs hash files := by
      rcases mem_mapSetAll_elim hp with h' | h'
      · simp at h'
      · exact h'
    rcases mem_fileIdPairs.1 hp' with ⟨⟨f, hf, hfp⟩, hi⟩
    exact buildFileGraph_node_exists ⟨f, hf, by rw [hi, hfp]⟩
  exact ⟨hnode _ hend.1, hnode _ hend.2⟩

/-- The `(parentId, parentNode)` insertions of step 1 of
`buildHierarchyGraph`, in file order. -/
def parentNodePairs (hier : String → HierarchyInfo) (level : Level)
    (files : List ParsedFile) : List (String × Node) :=
  files.filterMap (fun f =>
    (extractHierarchyKey (hier f.path) level).map (fun key =>
      (levelTag level ++ ":" ++ key,
        mkHierarchyNode level (levelTag level ++ ":" ++ key) key)))

/-- The `(filePath, parentId)` insertions of the `fileToParent` map. -/
def fileToParentPairs (hier : String → HierarchyInfo) (level : Level)
    (files : List ParsedFile) : List (String × String) :=
  files.filterMap (fun f =>
    (extractHierarchyKey (hier f.path) level).map (fun key =>
      (f.path, levelTag level ++ ":" ++ key)))

theorem hierarchyStep1_foldl (hier : String → HierarchyInfo) (level : Level)
    (files : List ParsedFile) :
    ∀ acc, files.foldl (hierarchyStep hier level) acc =
      (mapSetAllIfAbsent acc.1 (parentNodePairs hier level files),
       mapSetAll acc.2 (fileToParentPairs hier level files)) := by
  induction files with
  | nil => intro acc; simp [parentNodePairs, fileToParentPairs, mapSetAllIfAbsent, mapSetAll]
  | cons f files ih =>
    intro acc
    rw [List.foldl_cons]
    rcases hk : extractHierarchyKey (hier f.path) level with _ | key
    · have hstep : hierarchyStep hier level acc f = acc := by
        unfold hierarchyStep
        rw [hk]
      rw [hstep, ih]
      unfold parentNodePairs fileToParentPairs
      rw [List.filterMap_cons, List.filterMap_cons, hk]
      simp
    · have hstep : hierarchyStep hier level acc f =
          (mapSetIfAbsent acc.1 (levelTag level ++ ":" ++ key)
            (mkHierarchyNode level (levelTag level ++ ":" ++ key) key),
           mapSet acc.2 f.path (levelTag level ++ ":" ++ key)) := by
        unfold hierarchyStep
        rw [hk]
      rw [hstep, ih]
      unfold parentNodePairs fileToParentPairs
      rw [List.filterMap_cons, List.filterMap_cons, hk]
      rfl

theorem hierarchyStep1_eq (hier : String → HierarchyInfo) (level : Level)
    (files : List ParsedFile) :
    hierarchyStep1 hier level files =
      (mapSetAllIfAbsent [] (parentNodePairs hier level files),
       mapSetAll [] (fileToParentPairs hier level files)) :=
  hierarchyStep1_foldl hier level files ([], [])

theorem mem_parentNodePairs {hier : String → HierarchyInfo} {level : Level}
    {files : List ParsedFile} {p : String × Node} :
    p ∈ parentNodePairs hier level files ↔
      ∃ f ∈ files, ∃ k, extractHierarchyKey (hier f.path) level = some k ∧
        p = (levelTag level ++ ":" ++ k,
          mkHierarchyNode level (levelTag level ++ ":" ++ k) k) := by
  unfold parentNodePairs
  rw [List.mem_filterMap]
  constructor
  · rintro ⟨f, hf, he⟩
    rcases Option.map_eq_some.1 he with ⟨k, hk, hp⟩
    exact ⟨f, hf, k, hk, hp.symm⟩
  · rintro ⟨f, hf, k, hk, hp⟩
    exact ⟨f, hf, by rw [hk]; simp [hp]⟩

theorem mem_fileToParentPairs {hier : String → HierarchyInfo} {level : Level}
    {files : List ParsedFile} {p : String × String} :
    p ∈ fileToParentPairs hier level files ↔
      ∃ f ∈ files, ∃ k, extractHierarchyKey (hier f.path) level = some k ∧
        p = (f.path, levelTag level ++ ":" ++ k) := by
  unfold fileToParentPairs
  rw [List.mem_filterMap]
  constructor
  · rintro ⟨f, hf, he⟩
    rcases Option.map_eq_some.1 he with ⟨k, hk, hp⟩
    exact ⟨f, hf, k, hk, hp.symm⟩
  · rintro ⟨f, hf, k, hk, hp⟩
    exact ⟨f, hf, by rw [hk]; simp [hp]⟩

theorem parentNodePairs_coherent {hier : String → HierarchyInfo}
    {level : Level} {files : List ParsedFile} :
    Coherent (parentNodePairs hier level files) := by
  intro p hp q hq hk
  rcases mem_parentNodePairs.1 hp with ⟨f, _, k1, _, hp1⟩
  rcases mem_parentNodePairs.1 hq with ⟨g, _, k2, _, hq1⟩
  subst hp1
  subst hq1
  simp only at hk ⊢
  have : k1 = k2 := string_append_cancel_left hk
  rw [this]

theorem fileToParentPairs_coherent {hier : String → HierarchyInfo}
    {level : Level} {files : List ParsedFile} :
    Coherent (fileToParentPairs hier level files) := by
  intro p hp q hq hk
  rcases mem_fileToParentPairs.1 hp with ⟨f, _, k1, hk1, hp1⟩
  rcases mem_fileToParentPairs.1 hq with ⟨g, _, k2, hk2, hq1⟩
  subst hp1
  subst hq1
  simp only at hk ⊢
  rw [hk] at hk1
  rw [hk1] at hk2
  have : k1 = k2 := Option.some_injective _ hk2
  rw [this]

theorem mapGet_fileToParent_some {hier : String → HierarchyInfo}
    {level : Level} {files : List ParsedFile} {p pid : String}
    (h : mapGet (mapSetAll [] (fileToParentPairs hier level files)) p =
      some pid) :
    (∃ f ∈ files, f.path = p) ∧
      ∃ k, extractHierarchyKey (hier p) level = some k ∧
        pid = levelTag level ++ ":" ++ k := by
  have hmem := mapGet_eq_some_mem h
  have hmem' : (p, pid) ∈ fileToParentPairs hier level files := by
    rcases mem_mapSetAll_elim hmem with h' | h'
    · simp at h'
    · exact h'
  rcases mem_fileToParentPairs.1 hmem' with ⟨f, hf, k, hk, hpq⟩
  have hfp : f.path = p := (congrArg Prod.fst hpq).symm
  have hpid : pid = levelTag level ++ ":" ++ k := congrArg Prod.snd hpq
  exact ⟨⟨f, hf, hfp⟩, k, by rw [← hfp]; exact hk, hpid⟩

theorem mapGet_fileToParent_of_mem {hier : String → HierarchyInfo}
    {level : Level} {files : List ParsedFile} {f : ParsedFile} {k : String}
    (hf : f ∈ files) (hk : extractHierarchyKey (hier f.path) level = some k) :
    mapGet (mapSetAll [] (fileToParentPairs hier level files)) f.path =
      some (levelTag level ++ ":" ++ k) :=
  (mapGet_built fileToParentPairs_coherent).2
    (mem_fileToParentPairs.2 ⟨f, hf, k, hk, rfl⟩)

theorem parentNodePairs_shape {hier : String → HierarchyInfo} {level : Level}
    {files : List ParsedFile} {p : String × Node}
    (hp : p ∈ parentNodePairs hier level files) : p.2.id = p.1 := by
  rcases mem_parentNodePairs.1 hp with ⟨f, _, k, _, hp1⟩
  rw [hp1]
  rfl

theorem buildHierarchyGraph_node_exists {hier : String → HierarchyInfo}
    {resolve : String → String → Option String} {files : List ParsedFile}
    {level : Level} {pid : String}
    (h : ∃ f ∈ files, ∃ k, extractHierarchyKey (hier f.path) level = some k ∧
      pid = levelTag level ++ ":" ++ k) :
    ∃ n ∈ (buildHierarchyGraph hier resolve files level).nodes, n.id = pid := by
  rcases h with ⟨f, hf, k, hk, rfl⟩
  have hkey : levelTag level ++ ":" ++ k ∈
      (parentNodePairs hier level files).map Prod.fst :=
    List.mem_map.2 ⟨_, mem_parentNodePairs.2 ⟨f, hf, k, hk, rfl⟩, rfl⟩
  have hkeys : levelTag level ++ ":" ++ k ∈
      mapKeys (mapSetAllIfAbsent [] (parentNodePairs hier level files)) :=
    mem_mapKeys_mapSetAllIfAbsent.2 (Or.inr hkey)
  rcases mem_mapKeys_iff.1 hkeys with ⟨v, hv⟩
  have hvp : (levelTag level ++ ":" ++ k, v) ∈ parentNodePairs hier level files := by
    rcases mem_mapSetAllIfAbsent_elim hv with h' | h'
    · simp at h'
    · exact h'
  refine ⟨v, ?_, parentNodePairs_shape hvp⟩
  show v ∈ (buildHierarchyGraph hier resolve files level).nodes
  unfold buildHierarchyGraph
  rw [hierarchyStep1_eq]
  exact mem_mapValues.2 ⟨_, hv⟩

theorem mem_hierarchyEdgeCandidates
    {resolve : String → String → Option String}
    {ftpMap : List (String × String)} {files : List ParsedFile}
    {c : (String × String) × Edge} :
    c ∈ hierarchyEdgeCandidates resolve ftpMap files ↔
      ∃ f ∈ files, ∃ imp ∈ f.imports, ∃ rp fp tp,
        resolve f.path imp.importPath = some rp ∧
        mapGet ftpMap f.path = some fp ∧ mapGet ftpMap rp = some tp ∧
        fp ≠ tp ∧ c = ((fp, tp), mkImportEdge fp tp) := by
  unfold hierarchyEdgeCandidates
  rw [List.mem_flatMap]
  constructor
  · rintro ⟨f, hf, hmem⟩
    rcases List.mem_filterMap.1 hmem with ⟨imp, himp, heq⟩
    rcases Option.bind_eq_some.1 heq with ⟨rp, hrp, h2⟩
    rcases hfp : mapGet ftpMap f.path with _ | fp
    · rw [hfp] at h2
      simp at h2
    · rcases htp : mapGet ftpMap rp with _ | tp
      · rw [hfp, htp] at h2
        simp at h2
      · rw [hfp, htp] at h2
        simp only at h2
        split at h2
        · simp at h2
        · next hne =>
          exact ⟨f, hf, imp, himp, rp, fp, tp, hrp, hfp, htp, hne,
            (Option.some_injective _ h2).symm⟩
  · rintro ⟨f, hf, imp, himp, rp, fp, tp, hrp, hfp, htp, hne, rfl⟩
    refine ⟨f, hf, List.mem_filterMap.2 ⟨imp, himp, ?_⟩⟩
    rw [hrp, Option.some_bind, hfp, htp]
    simp [hne]

theorem hierarchyEdgeCandidates_shape
    {resolve : String → String → Option String}
    {ftpMap : List (String × String)} {files : List ParsedFile}
    {c : (String × String) × Edge}
    (h : c ∈ hierarchyEdgeCandidates resolve ftpMap files) :
    c.2 = mkImportEdge c.1.1 c.1.2 ∧ c.1.1 ≠ c.1.2 := by
  rcases mem_hierarchyEdgeCandidates.1 h with
    ⟨f, _, imp, _, rp, fp, tp, _, _, _, hne, rfl⟩
  exact ⟨rfl, hne⟩

theorem hierarchyEdgeCandidates_coherent
    {resolve : String → String → Option String}
    {ftpMap : List (String × String)} {files : List ParsedFile} :
    Coherent (hierarchyEdgeCandidates resolve ftpMap files) := by
  intro p hp q hq hk
  have hps := (hierarchyEdgeCandidates_shape hp).1
  have hqs := (hierarchyEdgeCandidates_shape hq).1
  rw [hps, hqs, hk]

theorem buildHierarchyGraph_noDangling {hier : String → HierarchyInfo}
    {resolve : String → String → Option String} {files : List ParsedFile}
    {level : Level} :
    noDanglingEdges (buildHierarchyGraph hier resolve files level) := by
  intro e he
  have he' : ∃ k, (k, e) ∈ hierarchyEdgeCandidates resolve
      (hierarchyStep1 hier level files).2 files := by
    rcases mem_mapValues.1 he with ⟨k, hk⟩
    rcases mem_mapSetAllIfAbsent_elim hk with h' | h'
    · simp at h'
    · exact ⟨k, h'⟩
  rcases he' with ⟨k, hk⟩
  rw [hierarchyStep1_eq] at hk
  rcases mem_hierarchyEdgeCandidates.1 hk with
    ⟨f, hf, imp, _, rp, fp, tp, _, hfp, htp, _, he2⟩
  have hee : e = mkImportEdge fp tp := congrArg Prod.snd he2
  rcases mapGet_fileToParent_some hfp with ⟨⟨f1, hf1, hf1p⟩, k1, hk1, hpid1⟩
  rcases mapGet_fileToParent_some htp with ⟨⟨g1, hg1, hg1p⟩, k2, hk2, hpid2⟩
  constructor
  · refine buildHierarchyGraph_node_exists ⟨f1, hf1, k1, ?_, ?_⟩
    · rw [hf1p]
      exact hk1
    · rw [hee, hpid1]
      rfl
  · refine buildHierarchyGraph_node_exists ⟨g1, hg1, k2, ?_, ?_⟩
    · rw [hg1p]
      exact hk2
    · rw [hee, hpid2]
      rfl

/-- A resolved file-to-file import crossing from hierarchy group `g1` to
group `g2`: some input file classified into `g1` has an import that
resolves to the path of an input file classified into `g2`. -/
def hierarchyCrossing (hier : String → HierarchyInfo)
    (resolve : String → String → Option String) (level : Level)
    (files : List ParsedFile) (g1 g2 : String) : Prop :=
  ∃ f ∈ files, ∃ imp ∈ f.imports, ∃ g ∈ files,
    resolve f.path imp.importPath = some g.path ∧
    extractHierarchyKey (hier f.path) level = some g1 ∧
    extractHierarchyKey (hier g.path) level = some g2

instance {hier : String → HierarchyInfo}
    {resolve : String → String → Option String} {level : Level}
    {files : List ParsedFile} {g1 g2 : String} :
    Decidable (hierarchyCrossing hier resolve level files g1 g2) := by
  unfold hierarchyCrossing
  infer_instance

theorem hierarchy_candidate_key_mem {hier : String → HierarchyInfo}
    {resolve : String → String → Option String} {files : List ParsedFile}
    {level : Level} {g1 g2 : String} (hne : g1 ≠ g2) :
    (levelTag level ++ ":" ++ g1, levelTag level ++ ":" ++ g2) ∈
      (hierarchyEdgeCandidates resolve
        (mapSetAll [] (fileToParentPairs hier level files)) files).map
        Prod.fst ↔
      hierarchyCrossing hier resolve level files g1 g2 := by
  rw [List.mem_map]
  constructor
  · rintro ⟨c, hc, hck⟩
    rcases mem_hierarchyEdgeCandidates.1 hc with
      ⟨f, hf, imp, himp, rp, fp, tp, hrp, hfp, htp, _, rfl⟩
    have hfp1 : fp = levelTag level ++ ":" ++ g1 := congrArg Prod.fst hck
    have htp1 : tp = levelTag level ++ ":" ++ g2 := congrArg Prod.snd hck
    rcases mapGet_fileToParent_some hfp with ⟨_, k1, hk1, hpid1⟩
    rcases mapGet_fileToParent_some htp with ⟨⟨g, hg, hgp⟩, k2, hk2, hpid2⟩
    have hg1 : k1 = g1 := string_append_cancel_left (hpid1.symm.trans hfp1)
    have hg2 : k2 = g2 := string_append_cancel_left (hpid2.symm.trans htp1)
    refine ⟨f, hf, imp, himp, g, hg, by rw [hrp, hgp], ?_, ?_⟩
    · rw [← hg1]
      exact hk1
    · rw [hgp, ← hg2]
      exact hk2
  · rintro ⟨f, hf, imp, himp, g, hg, hrp, hk1, hk2⟩
    refine ⟨((levelTag level ++ ":" ++ g1, levelTag level ++ ":" ++ g2),
      mkImportEdge (levelTag level ++ ":" ++ g1) (levelTag level ++ ":" ++ g2)),
      mem_hierarchyEdgeCandidates.2
        ⟨f, hf, imp, himp, g.path, _, _, hrp,
          mapGet_fileToParent_of_mem hf hk1,
          mapGet_fileToParent_of_mem hg hk2, ?_, rfl⟩, rfl⟩
    intro hcon
    exact hne (string_append_cancel_left hcon)

theorem mem_typeNodePairs {hash : String → String} {files : List ParsedFile}
    {p : String × Node} :
    p ∈ typeNodePairs hash files ↔
      ∃ f ∈ files, ∃ td ∈ f.typeDefinitions.getD [],
        p = (typeNodeId hash f.path td, mkAbstractNode hash f.path td) := by
  unfold typeNodePairs
  rw [List.mem_flatMap]
  constructor
  · rintro ⟨f, hf, hmem⟩
    rcases List.mem_map.1 hmem with ⟨td, htd, he⟩
    exact ⟨f, hf, td, htd, he.symm⟩
  · rintro ⟨f, hf, td, htd, he⟩
    exact ⟨f, hf, List.mem_map.2 ⟨td, htd, he.symm⟩⟩

theorem mem_typeNamePairs {hash : String → String} {files : List ParsedFile}
    {p : String × String} :
    p ∈ typeNamePairs hash files ↔
      ∃ f ∈ files, ∃ td ∈ f.typeDefinitions.getD [],
        p = (td.name, typeNodeId hash f.path td) := by
  unfold typeNamePairs
  rw [List.mem_flatMap]
  constructor
  · rintro ⟨f, hf, hmem⟩
    rcases List.mem_map.1 hmem with ⟨td, htd, he⟩
    exact ⟨f, hf, td, htd, he.symm⟩
  · rintro ⟨f, hf, td, htd, he⟩
    exact ⟨f, hf, List.mem_map.2 ⟨td, htd, he.symm⟩⟩

theorem typeNodePairs_shape {hash : String → String}
    {files : List ParsedFile} {p : String × Node}
    (hp : p ∈ typeNodePairs hash files) : p.2.id = p.1 := by
  rcases mem_typeNodePairs.1 hp with ⟨f, _, td, _, he⟩
  rw [he]
  rfl

theorem buildInterfaceGraph_node_exists {hash : String → String}
    {files : List ParsedFile} {i : String}
    (h : ∃ f ∈ files, ∃ td ∈ f.typeDefinitions.getD [],
      i = typeNodeId hash f.path td) :
    ∃ n ∈ (buildInterfaceGraph hash files).nodes, n.id = i := by
  rcases h with ⟨f, hf, td, htd, rfl⟩
  have hkey : typeNodeId hash f.path td ∈ (typeNodePairs hash files).map Prod.fst :=
    List.mem_map.2 ⟨_, mem_typeNodePairs.2 ⟨f, hf, td, htd, rfl⟩, rfl⟩
  have hkeys : typeNodeId hash f.path td ∈
      mapKeys (mapSetAll [] (typeNodePairs hash files)) :=
    mem_mapKeys_mapSetAll.2 (Or.inr hkey)
  rcases mem_mapKeys_iff.1 hkeys with ⟨v, hv⟩
  have hvp : (typeNodeId hash f.path td, v) ∈ typeNodePairs hash files := by
    rcases mem_mapSetAll_elim hv with h' | h'
    · simp at h'
    · exact h'
  exact ⟨v, mem_mapValues.2 ⟨_, hv⟩, typeNodePairs_shape hvp⟩

theorem mem_typeEdgeCandidates {tMap : List (String × String)}
    {files : List ParsedFile} {c : TypeEdgeKey × Edge} :
    c ∈ typeEdgeCandidates tMap files ↔
      ∃ f ∈ files, ∃ td ∈ f.typeDefinitions.getD [], ∃ fromId,
        mapGet tMap td.name = some fromId ∧
        ((∃ ex ∈ td.exts, ∃ toId, mapGet tMap ex = some toId ∧
            c = (TypeEdgeKey.ext fromId toId,
              mkTypeImplementEdge fromId toId ex)) ∨
         (∃ im ∈ td.impls, ∃ toId, mapGet tMap im = some toId ∧
            c = (TypeEdgeKey.impl fromId toId,
              mkTypeImplementEdge fromId toId im)) ∨
         (∃ r ∈ td.references, ∃ toId, mapGet tMap r = some toId ∧
            toId ≠ fromId ∧
            c = (TypeEdgeKey.uses fromId toId,
              mkTypeUseEdge fromId toId r))) := by
  unfold typeEdgeCandidates
  rw [List.mem_flatMap]
  constructor
  · rintro ⟨f, hf, hmem⟩
    rcases List.mem_flatMap.1 hmem with ⟨td, htd, hmem2⟩
    rcases hfid : mapGet tMap td.name with _ | fromId
    · rw [hfid] at hmem2
      simp at hmem2
    · rw [hfid] at hmem2
      refine ⟨f, hf, td, htd, fromId, hfid, ?_⟩
      rcases List.mem_append.1 hmem2 with hm | hm
      · rcases List.mem_append.1 hm with hm' | hm'
        · rcases List.mem_filterMap.1 hm' with ⟨ex, hex, he⟩
          rcases Option.map_eq_some.1 he with ⟨toId, ht, he2⟩
          exact Or.inl ⟨ex, hex, toId, ht, he2.symm⟩
        · rcases List.mem_filterMap.1 hm' with ⟨im, him, he⟩
          rcases Option.map_eq_some.1 he with ⟨toId, ht, he2⟩
          exact Or.inr (Or.inl ⟨im, him, toId, ht, he2.symm⟩)
      · rcases List.mem_filterMap.1 hm with ⟨r, hr, he⟩
        rcases Option.bind_eq_some.1 he with ⟨toId, ht, he2⟩
        split at he2
        · simp at he2
        · next hne =>
          exact Or.inr (Or.inr ⟨r, hr, toId, ht, hne,
            (Option.some_injective _ he2).symm⟩)
  · rintro ⟨f, hf, td, htd, fromId, hfid, hcase⟩
    refine ⟨f, hf, List.mem_flatMap.2 ⟨td, htd, ?_⟩⟩
    rw [hfid]
    rcases hcase with ⟨ex, hex, toId, ht, rfl⟩ | ⟨im, him, toId, ht, rfl⟩ |
      ⟨r, hr, toId, ht, hne, rfl⟩
    · refine List.mem_append.2 (Or.inl (List.mem_append.2 (Or.inl ?_)))
      exact List.mem_filterMap.2 ⟨ex, hex, by rw [ht]; rfl⟩
    · refine List.mem_append.2 (Or.inl (List.mem_append.2 (Or.inr ?_)))
      exact List.mem_filterMap.2 ⟨im, him, by rw [ht]; rfl⟩
    · refine List.mem_append.2 (Or.inr ?_)
      refine List.mem_filterMap.2 ⟨r, hr, ?_⟩
      rw [ht, Option.some_bind]
      simp [hne]

theorem typeEdgeCandidates_endpoints {tMap : List (String × String)}
    {files : List ParsedFile} {c : TypeEdgeKey × Edge}
    (h : c ∈ typeEdgeCandidates tMap files) :
    (∃ n, (n, c.2.efrom) ∈ tMap) ∧ (∃ n, (n, c.2.eto) ∈ tMap) := by
  rcases mem_typeEdgeCandidates.1 h with ⟨f, _, td, _, fromId, hfid, hcase⟩
  rcases hcase with ⟨ex, _, toId, ht, rfl⟩ | ⟨im, _, toId, ht, rfl⟩ |
    ⟨r, _, toId, ht, _, rfl⟩ <;>
    exact ⟨⟨td.name, mapGet_eq_some_mem hfid⟩, ⟨_, mapGet_eq_some_mem ht⟩⟩

theorem buildInterfaceGraph_noDangling {hash : String → String}
    {files : List ParsedFile} :
    noDanglingEdges (buildInterfaceGraph hash files) := by
  intro e he
  have he' : ∃ k, (k, e) ∈ typeEdgeCandidates
      (mapSetAll [] (typeNamePairs hash files)) files := by
    rcases mem_mapValues.1 he with ⟨k, hk⟩
    rcases mem_mapSetAllIfAbsent_elim hk with h' | h'
    · simp at h'
    · exact ⟨k, h'⟩
  rcases he' with ⟨k, hk⟩
  have hend := typeEdgeCandidates_endpoints hk
  have hnode : ∀ i, (∃ n, (n, i) ∈ mapSetAll [] (typeNamePairs hash files)) →
      ∃ n ∈ (buildInterfaceGraph hash files).nodes, n.id = i := by
    rintro i ⟨n, hn⟩
    have hn' : (n, i) ∈ typeNamePairs hash files := by
      rcases mem_mapSetAll_elim hn with h' | h'
      · simp at h'
      · exact h'
    rcases mem_typeNamePairs.1 hn' with ⟨f, hf, td, htd, he2⟩
    exact buildInterfaceGraph_node_exists
      ⟨f, hf, td, htd, congrArg Prod.snd he2⟩
  exact ⟨hnode _ hend.1, hnode _ hend.2⟩

/-! ## View filters preserve the no-dangling-edge invariant -/

/-- No-dangling-edges is decidable, so that concrete instances can be
settled by evaluation. -/
instance (g : Graph) : Decidable (noDanglingEdges g) := by
  unfold noDanglingEdges
  infer_instance

theorem filterGraphByNeighbors_noDangling {g : Graph} {fp : String} {d : Nat}
    (h : noDanglingEdges g) : noDanglingEdges (filterGraphByNeighbors g fp d) := by
  unfold filterGraphByNeighbors
  split
  · intro e he
    simp at he
  · intro e he
    rcases List.mem_filter.1 he with ⟨heg, hcond⟩
    rw [Bool.and_eq_true] at hcond
    rcases hcond with ⟨hfrom, hto⟩
    rcases h e heg with ⟨⟨n1, hn1, hid1⟩, ⟨n2, hn2, hid2⟩⟩
    constructor
    · exact ⟨n1, List.mem_filter.2 ⟨hn1, by rw [hid1]; exact hfrom⟩, hid1⟩
    · exact ⟨n2, List.mem_filter.2 ⟨hn2, by rw [hid2]; exact hto⟩, hid2⟩

theorem buildFocusedGraph_noDangling {hier : String → HierarchyInfo}
    {hash : String → String} {resolve : String → String → Option String}
    {files : List ParsedFile} {level : Level} {et : List EdgeType}
    {fp : String} {il : Level} :
    noDanglingEdges (buildFocusedGraph hier hash resolve files level et fp il) := by
  simp only [buildFocusedGraph]
  split
  · intro e he
    simp at he
  · split
    · exact buildInterfaceGraph_noDangling
    · exact buildFileGraph_noDangling

/-- C1 (amended): every graph built by the engine through `buildGraph`
— the file-level graph, the hierarchy-aggregated graph, the
interface-level graph, and the focused and neighbors views — has no
dangling edges: each edge's `from` and `to` are ids of nodes of the same
graph.  (The original claim extended this to the added/removed/modified
graphs inside a diff result, which fails; see the counterexample.) -/
theorem c1_built_graphs_no_dangling :
    ∀ (hier : String → HierarchyInfo) (hash : String → String)
      (resolve : String → String → Option String)
      (files : List ParsedFile) (options : BuildOptions),
      noDanglingEdges (buildGraph hier hash resolve files options) := by
  intro hier hash resolve files options
  simp only [buildGraph]
  split
  · exact buildFocusedGraph_noDangling
  · have hg : noDanglingEdges
        (if options.level.getD .file == .file then
          buildFileGraph hash resolve files (options.edgeTypes.getD [.imp])
        else if options.level.getD .file == .interface then
          buildInterfaceGraph hash files
        else
          buildHierarchyGraph hier resolve files (options.level.getD .file)) := by
      split
      · exact buildFileGraph_noDangling
      · split
        · exact buildInterfaceGraph_noDangling
        · exact buildHierarchyGraph_noDangling
    split
    · exact filterGraphByNeighbors_noDangling hg
    · exact hg

/-- Example input for the diff counterexample: two persisting file nodes
with a newly added import edge between them. -/
def exNodeA : Node :=
  { ntype := .hierarchy, level := some .file, kind := none, id := "ia",
    path := "a.ts", name := none, isExported := none, status := .normal }

/-- Second persisting node of the diff counterexample. -/
def exNodeB : Node :=
  { ntype := .hierarchy, level := some .file, kind := none, id := "ib",
    path := "b.ts", name := none, isExported := none, status := .normal }

/-- Old snapshot: both nodes, no edges. -/
def exOldGraph : Graph := { nodes := [exNodeA, exNodeB], edges := [] }

/-- New snapshot: both nodes plus one import edge. -/
def exNewGraph : Graph :=
  { nodes := [exNodeA, exNodeB], edges := [mkImportEdge "ia" "ib"] }

/-- An empty changeset. -/
def exNoChanges : FileChanges := { added := [], removed := [], modified := [] }

/-- C1 counterexample: both input snapshots are well-formed (the new one
has no dangling edges), yet the `added` graph of the diff contains the
new edge while containing neither endpoint node — so the claimed
invariant fails for the graphs inside a diff result. -/
theorem c1_diff_added_dangling_cex :
    noDanglingEdges exNewGraph ∧
      (buildDiff exOldGraph exNewGraph exNoChanges).added.edges ≠ [] ∧
      ¬ noDanglingEdges (buildDiff exOldGraph exNewGraph exNoChanges).added := by
  decide

/-- C3: in the hierarchy-aggregated graph at any level, for every ordered
pair of distinct group keys there is exactly one aggregated import edge
when at least one resolved file-to-file import crosses from the first
group to the second, and zero otherwise; and no intra-group import ever
produces a self-edge. -/
theorem c3_hierarchy_aggregation :
    ∀ (hier : String → HierarchyInfo)
      (resolve : String → String → Option String)
      (files : List ParsedFile) (level : Level) (g1 g2 : String),
      (g1 ≠ g2 →
        (buildHierarchyGraph hier resolve files level).edges.countP (fun e =>
          decide (e.efrom = levelTag level ++ ":" ++ g1 ∧
            e.eto = levelTag level ++ ":" ++ g2)) =
          if hierarchyCrossing hier resolve level files g1 g2 then 1 else 0) ∧
      (∀ p : String,
        (buildHierarchyGraph hier resolve files level).edges.countP (fun e =>
          decide (e.efrom = p ∧ e.eto = p)) = 0) := by
  intro hier resolve files level g1 g2
  have hedges : (buildHierarchyGraph hier resolve files level).edges =
      mapValues (mapSetAllIfAbsent [] (hierarchyEdgeCandidates resolve
        (mapSetAll [] (fileToParentPairs hier level files)) files)) := by
    unfold buildHierarchyGraph
    rw [hierarchyStep1_eq]
  constructor
  · intro hne
    rw [hedges]
    have hshape : ∀ p ∈ mapSetAllIfAbsent []
        (hierarchyEdgeCandidates resolve
          (mapSetAll [] (fileToParentPairs hier level files)) files),
        p.1 = (fun (e : Edge) => (e.efrom, e.eto)) p.2 := by
      intro p hp
      have hp' : p ∈ hierarchyEdgeCandidates resolve
          (mapSetAll [] (fileToParentPairs hier level files)) files := by
        rcases mem_mapSetAllIfAbsent_elim hp with h' | h'
        · simp at h'
        · exact h'
      have := (hierarchyEdgeCandidates_shape hp').1
      rw [this]
      rfl
    have hcount := countP_mapValues_key
      (m := mapSetAllIfAbsent [] (hierarchyEdgeCandidates resolve
        (mapSetAll [] (fileToParentPairs hier level files)) files))
      (f := fun (e : Edge) => (e.efrom, e.eto))
      (K := (levelTag level ++ ":" ++ g1, levelTag level ++ ":" ++ g2))
      (P := fun e => decide (e.efrom = levelTag level ++ ":" ++ g1 ∧
        e.eto = levelTag level ++ ":" ++ g2))
      (mapKeys_mapSetAllIfAbsent_nodup (by simp [mapKeys])) hshape
      (fun v => by simp [Prod.ext_iff])
    rw [hcount]
    have hkey : ((levelTag level ++ ":" ++ g1, levelTag level ++ ":" ++ g2) ∈
        mapKeys (mapSetAllIfAbsent [] (hierarchyEdgeCandidates resolve
          (mapSetAll [] (fileToParentPairs hier level files)) files))) ↔
        hierarchyCrossing hier resolve level files g1 g2 := by
      rw [mem_mapKeys_mapSetAllIfAbsent]
      simp only [mapKeys, List.map_nil, List.not_mem_nil, false_or]
      exact hierarchy_candidate_key_mem hne
    split
    · next hin => rw [if_pos (hkey.1 hin)]
    · next hout => rw [if_neg (fun hc => hout (hkey.2 hc))]
  · intro p
    rw [hedges, List.countP_eq_zero]
    intro e he
    rcases mem_mapValues.1 he with ⟨k, hk⟩
    have hk' : (k, e) ∈ hierarchyEdgeCandidates resolve
        (mapSetAll [] (fileToParentPairs hier level files)) files := by
      rcases mem_mapSetAllIfAbsent_elim hk with h' | h'
      · simp at h'
      · exact h'
    rcases hierarchyEdgeCandidates_shape hk' with ⟨hval, hne⟩
    simp only at hval hne
    simp only [decide_eq_true_eq]
    rintro ⟨h1, h2⟩
    apply hne
    rw [show k.1 = e.efrom from by (rw [hval]; rfl),
      show k.2 = e.eto from by (rw [hval]; rfl), h1, h2]

/-- Concrete hierarchy classifier for witnesses: two files in two
modules. -/
def exHierFn : String → HierarchyInfo := fun p =>
  if p = "m1/a.ts" then ⟨none, some "m1", none⟩
  else if p = "m2/b.ts" then ⟨none, some "m2", none⟩
  else ⟨none, none, none⟩

/-- Concrete resolver for witnesses: `./b` from `m1/a.ts` resolves to
`m2/b.ts`. -/
def exResolveFn : String → String → Option String := fun f imp =>
  if f = "m1/a.ts" && imp = "./b" then some "m2/b.ts" else none

/-- Witness file importing across modules. -/
def exFileA : ParsedFile :=
  { path := "m1/a.ts", imports := [⟨"./b", false, false⟩],
    implements := none, renders := none, typeDefinitions := none }

/-- Witness file being imported. -/
def exFileB : ParsedFile :=
  { path := "m2/b.ts", imports := [],
    implements := none, renders := none, typeDefinitions := none }

/-- C3 witness: at module level with one cross-module import, the
distinct pair (m1, m2) has exactly one aggregated edge (the crossing
exists), obtained by applying the theorem at this concrete input. -/
theorem c3_witness :
    ("m1" : String) ≠ "m2" ∧
      (buildHierarchyGraph exHierFn exResolveFn [exFileA, exFileB]
        .module).edges.countP (fun e =>
          decide (e.efrom = levelTag .module ++ ":" ++ "m1" ∧
            e.eto = levelTag .module ++ ":" ++ "m2")) =
        if hierarchyCrossing exHierFn exResolveFn .module
          [exFileA, exFileB] "m1" "m2" then 1 else 0 :=
  ⟨by decide,
    (c3_hierarchy_aggregation exHierFn exResolveFn [exFileA, exFileB]
      .module "m1" "m2").1 (by decide)⟩

theorem nodup_map_inj {α β : Type} (f : α → β) {l : List α}
    (h : (l.map f).Nodup) {a b : α} (ha : a ∈ l) (hb : b ∈ l)
    (hf : f a = f b) : a = b := by
  induction l with
  | nil => simp at ha
  | cons c t ih =>
    rw [List.map_cons, List.nodup_cons] at h
    rcases h with ⟨hc, ht⟩
    rcases List.mem_cons.1 ha with rfl | ha'
    · rcases List.mem_cons.1 hb with rfl | hb'
      · rfl
      · exact absurd (hf ▸ List.mem_map.2 ⟨b, hb', rfl⟩) hc
    · rcases List.mem_cons.1 hb with rfl | hb'
      · exact absurd (hf ▸ List.mem_map.2 ⟨a, ha', rfl⟩) hc
      · exact ih ht ha' hb'

theorem mem_focusIdsOf {g : Graph} {k : String} {x : String} :
    x ∈ focusIdsOf g k ↔ x ∈ (seedsOf g k).map Node.id := by
  unfold focusIdsOf
  rw [mem_foldl_setAdd Node.id (seedsOf g k) [], List.mem_map]
  simp

theorem contains_focusIdsOf {g : Graph} {k : String} (x : String) :
    (focusIdsOf g k).contains x = ((seedsOf g k).map Node.id).contains x := by
  have hmem := mem_focusIdsOf (g := g) (k := k) (x := x)
  rw [Bool.eq_iff_iff]
  simpa using hmem

/-- C6: applying the neighbors view with depth 0 to a graph whose node
ids are unique returns exactly the seed nodes matched by the focus key
plus only those edges whose both endpoints are seed ids. -/
theorem c6_neighbors_depth_zero :
    ∀ (g : Graph) (k : String),
      (g.nodes.map Node.id).Nodup →
      filterGraphByNeighbors g k 0 =
        { nodes := seedsOf g k,
          edges := g.edges.filter (fun e =>
            ((seedsOf g k).map Node.id).contains e.efrom &&
            ((seedsOf g k).map Node.id).contains e.eto) } := by
  intro g k hnd
  unfold filterGraphByNeighbors
  by_cases hE : (seedsOf g k).isEmpty
  · rw [if_pos hE]
    have hseeds : seedsOf g k = [] := List.isEmpty_iff.1 hE
    rw [hseeds]
    simp
  · rw [if_neg hE]
    have hinc : neighborIncluded g k 0 = focusIdsOf g k := rfl
    have hnodes : g.nodes.filter (fun n =>
        (neighborIncluded g k 0).contains n.id) = seedsOf g k := by
      have : seedsOf g k = g.nodes.filter (fun n => pathMatches n.path k) := rfl
      rw [this]
      refine List.filter_congr (fun n hn => ?_)
      rw [hinc, contains_focusIdsOf]
      rcases hm : pathMatches n.path k
      · rcases hc : ((seedsOf g k).map Node.id).contains n.id
        · rfl
        · have : n.id ∈ (seedsOf g k).map Node.id := by simpa using hc
          rcases List.mem_map.1 this with ⟨m, hmseed, hmid⟩
          have hmg : m ∈ g.nodes := List.mem_of_mem_filter hmseed
          have : m = n := nodup_map_inj Node.id hnd hmg hn hmid
          subst this
          have : pathMatches m.path k = true := (List.mem_filter.1 hmseed).2
          rw [this] at hm
          exact hm
      · have hnseed : n ∈ seedsOf g k := List.mem_filter.2 ⟨hn, hm⟩
        have : n.id ∈ (seedsOf g k).map Node.id := List.mem_map.2 ⟨n, hnseed, rfl⟩
        simpa using this
    have hedges : g.edges.filter (fun e =>
        (neighborIncluded g k 0).contains e.efrom &&
        (neighborIncluded g k 0).contains e.eto) =
        g.edges.filter (fun e =>
          ((seedsOf g k).map Node.id).contains e.efrom &&
          ((seedsOf g k).map Node.id).contains e.eto) := by
      refine List.filter_congr (fun e _ => ?_)
      rw [hinc, contains_focusIdsOf, contains_focusIdsOf]
    rw [hnodes, hedges]

/-- Witness graph for the neighbors claims: two nodes, one edge. -/
def exGraphAB : Graph :=
  { nodes := [exNodeA, exNodeB], edges := [mkImportEdge "ia" "ib"] }

/-- C6 witness: the depth-0 neighbors view of the concrete two-node
graph focused on `a.ts`, via the theorem. -/
theorem c6_witness :
    (exGraphAB.nodes.map Node.id).Nodup ∧
      filterGraphByNeighbors exGraphAB "a.ts" 0 =
        { nodes := seedsOf exGraphAB "a.ts",
          edges := exGraphAB.edges.filter (fun e =>
            ((seedsOf exGraphAB "a.ts").map Node.id).contains e.efrom &&
            ((seedsOf exGraphAB "a.ts").map Node.id).contains e.eto) } :=
  ⟨by decide, c6_neighbors_depth_zero exGraphAB "a.ts" (by decide)⟩

/-- Concrete identity hash for witnesses: injective on the inputs
used here (the engine's actual hash is a SHA-256 suffix, whose only
relevant property is that distinct paths get distinct hashes). -/
def exHashFn : String → String := fun s => s

/-- C8: a focus query that matches nothing is not an error: focused mode
with zero matching files and neighbors mode with zero matching nodes
both return the empty graph (and, the embedding being total, no
exception is possible). -/
theorem c8_empty_focus_returns_empty_graph :
    (∀ (hier : String → HierarchyInfo) (hash : String → String)
      (resolve : String → String → Option String) (files : List ParsedFile)
      (level : Level) (et : List EdgeType) (fp : String) (il : Level),
      (∀ f ∈ files, focusMatch hier level fp f = false) →
      buildFocusedGraph hier hash resolve files level et fp il =
        { nodes := [], edges := [] }) ∧
    (∀ (g : Graph) (k : String) (d : Nat),
      (∀ n ∈ g.nodes, pathMatches n.path k = false) →
      filterGraphByNeighbors g k d = { nodes := [], edges := [] }) := by
  constructor
  · intro hier hash resolve files level et fp il hnone
    have hfilter : files.filter (focusMatch hier level fp) = [] := by
      rw [List.filter_eq_nil_iff]
      intro f hf
      simp [hnone f hf]
    simp only [buildFocusedGraph, hfilter]
    rfl
  · intro g k d hnone
    have hfilter : seedsOf g k = [] := by
      show g.nodes.filter (fun n => pathMatches n.path k) = []
      rw [List.filter_eq_nil_iff]
      intro n hn
      simp [hnone n hn]
    unfold filterGraphByNeighbors
    rw [hfilter]
    rfl

/-- C8 witness: a focus key matching no file and no node yields the
empty graph on concrete inputs, via the theorem. -/
theorem c8_witness :
    (∀ f ∈ [exFileA], focusMatch exHierFn .module "zzz" f = false) ∧
      buildFocusedGraph exHierFn exHashFn exResolveFn [exFileA] .module
        [.imp] "zzz" .file = { nodes := [], edges := [] } ∧
      (∀ n ∈ exGraphAB.nodes, pathMatches n.path "zzz" = false) ∧
      filterGraphByNeighbors exGraphAB "zzz" 3 = { nodes := [], edges := [] } :=
  ⟨by decide,
    c8_empty_focus_returns_empty_graph.1 exHierFn exHashFn exResolveFn
      [exFileA] .module [.imp] "zzz" .file (by decide),
    by decide,
    c8_empty_focus_returns_empty_graph.2 exGraphAB "zzz" 3 (by decide)⟩

/-- C10: calling `buildGraph` in focused or neighbors mode without a
focus path applies no view filtering and raises no error — the result
equals the unfiltered global graph at the requested level. -/
theorem c10_missing_focus_path_no_filter :
    ∀ (hier : String → HierarchyInfo) (hash : String → String)
      (resolve : String → String → Option String) (files : List ParsedFile)
      (level : Option Level) (et : Option (List EdgeType))
      (nd : Option Nat) (il : Option Level),
      buildGraph hier hash resolve files
        ⟨level, et, some .focused, none, nd, il⟩ =
        buildGraph hier hash resolve files
          ⟨level, et, some .global, none, nd, il⟩ ∧
      buildGraph hier hash resolve files
        ⟨level, et, some .neighbors, none, nd, il⟩ =
        buildGraph hier hash resolve files
          ⟨level, et, some .global, none, nd, il⟩ := by
  intro hier hash resolve files level et nd il
  constructor <;> rfl

/-- Source file whose class implements two interfaces that both live in
the same target file. -/
def exImplSource : ParsedFile :=
  { path := "S.ts",
    imports := [],
    implements := some [⟨"C", ["IA", "IB"], [("IA", "./t"), ("IB", "./t")]⟩],
    renders := none, typeDefinitions := none }

/-- The target file declaring both interfaces. -/
def exImplTarget : ParsedFile :=
  { path := "T.ts", imports := [], implements := none, renders := none,
    typeDefinitions := none }

/-- Concrete resolver for the implement-edge scenario. -/
def exImplResolve : String → String → Option String := fun _ imp =>
  if imp = "./t" then some "T.ts" else none

/-- C2 counterexample: with two interfaces resolving to the same target
file, `createImplementEdges` produces two edges (deduplicated by
`(from, to, symbolName)`), but the graph returned by `buildFileGraph`
contains exactly one implement edge between the pair — not two as
claimed — and it carries the symbol name of the interface processed
last. -/
theorem c2_implement_collapse_cex :
    (createImplementEdges exImplResolve
      (mapSetAll [] (fileIdPairs exHashFn [exImplSource, exImplTarget]))
      [exImplSource, exImplTarget]).length = 2 ∧
    (buildFileGraph exHashFn exImplResolve [exImplSource, exImplTarget]
      [.implement]).edges.countP (fun e => decide (e.etype = .implement ∧
        e.efrom = generateNodeId exHashFn "S.ts" ∧
        e.eto = generateNodeId exHashFn "T.ts")) = 1 ∧
    (buildFileGraph exHashFn exImplResolve [exImplSource, exImplTarget]
      [.implement]).edges.map Edge.symbolName = [some "IB"] := by
  decide

/-- C2 (amended): `createImplementEdges` deduplicates by
`(from, to, symbolName)` — its output has pairwise-distinct such triples
— but `buildFileGraph` re-keys implement edges by `(from, to)` only, so
the returned graph contains at most one implement edge per ordered node
pair; two interfaces resolving to the same target file therefore yield
one edge (the last created), not two. -/
theorem c2_implement_edges_collapse_per_pair :
    ∀ (hash : String → String) (resolve : String → String → Option String)
      (files : List ParsedFile) (et : List EdgeType) (a b : String),
      ((createImplementEdges resolve (mapSetAll [] (fileIdPairs hash files))
        files).map (fun e => (e.efrom, e.eto, e.symbolName))).Nodup ∧
      (buildFileGraph hash resolve files et).edges.countP (fun e =>
        decide (e.etype = .implement ∧ e.efrom = a ∧ e.eto = b)) ≤ 1 := by
  intro hash resolve files et a b
  constructor
  · exact (dedupByKey_nodup_keys).1
  · have hedges : (buildFileGraph hash resolve files et).edges =
        mapValues (mapSetAll []
          (((if et.contains .imp then
              createImportEdges resolve (mapSetAll [] (fileIdPairs hash files)) files
            else []) ++
            (if et.contains .implement then
              createImplementEdges resolve (mapSetAll [] (fileIdPairs hash files)) files
            else []) ++
            (if et.contains .render then
              createRenderEdges resolve (mapSetAll [] (fileIdPairs hash files)) files
            else [])).map (fun e => (fileEdgeKey e, e)))) := rfl
    rw [hedges]
    refine countP_mapValues_le_one (f := fileEdgeKey)
      (K := FileEdgeKey.impl a b)
      (mapKeys_mapSetAll_nodup (by simp [mapKeys])) ?_ ?_
    · intro p hp
      rcases mem_mapSetAll_elim hp with h' | h'
      · simp at h'
      · rcases List.mem_map.1 h' with ⟨e, _, he⟩
        rw [← he]
    · intro v hv
      simp only [decide_eq_true_eq] at hv
      rcases hv with ⟨ht, hfrom, hto⟩
      unfold fileEdgeKey
      rw [ht, hfrom, hto]

/-- Per-root alias configurations for the cache counterexample: each
root maps the `@/` prefix to its own source directory. -/
def exConfigOf : String → AliasMap := fun root =>
  if root = "/r1" then [("@/", "/r1/src")] else [("@/", "/r2/src")]

/-- File lookup map holding the alias targets of both roots. -/
def exFilePathMap : List (String × String) :=
  [("/r1/src/x.ts", "/r1/src/x.ts"), ("/r2/src/x.ts", "/r2/src/x.ts")]

/-- C4 counterexample: the two roots have different alias tables, yet
after a resolution under the first root has populated the cache,
resolving `@/x` under the second root returns the first root's target —
while the second root's own aliases would have produced its own target. -/
theorem c4_cache_not_keyed_by_root_cex :
    exConfigOf "/r1" ≠ exConfigOf "/r2" ∧
    (resolveImportPath exConfigOf
      (resolveImportPath exConfigOf none "/r1/a.ts" "@/x" exFilePathMap
        (some "/r1")).2
      "/r2/b.ts" "@/x" exFilePathMap (some "/r2")).1 = some "/r1/src/x.ts" ∧
    (resolveImportPath exConfigOf (some (exConfigOf "/r2")) "/r2/b.ts" "@/x"
      exFilePathMap (some "/r2")).1 = some "/r2/src/x.ts" := by
  decide

/-- C4 (amended): the alias table is cached in one module-level slot
that is not keyed by the project root: once populated, `loadPathAliases`
returns the cached table unchanged for any root, and `resolveImportPath`
never consults the configuration again — its result is independent of
the configuration function once the cache holds a table. -/
theorem c4_alias_cache_single_slot :
    ∀ (configOf configOf' : String → AliasMap) (m : AliasMap) (r : String)
      (fromFile importPath : String) (fpm : List (String × String))
      (pp : Option String),
      loadPathAliases configOf (some m) r = (m, some m) ∧
      resolveImportPath configOf (some m) fromFile importPath fpm pp =
        resolveImportPath configOf' (some m) fromFile importPath fpm pp := by
  intro configOf configOf' m r fromFile importPath fpm pp
  exact ⟨rfl, rfl⟩

/-- Graph for the seed-precedence counterexample: one node whose path
exactly equals the focus key and one whose path merely contains it. -/
def exSeedGraph : Graph :=
  { nodes :=
      [{ ntype := .hierarchy, level := some .file, kind := none, id := "n1",
         path := "a", name := none, isExported := none, status := .normal },
       { ntype := .hierarchy, level := some .file, kind := none, id := "n2",
         path := "xax", name := none, isExported := none, status := .normal }],
    edges := [] }

/-- C5 counterexample: although a node with path exactly equal to the
focus key exists, the neighbors view also seeds the node whose path
merely contains the key — there is no exact-match precedence. -/
theorem c5_no_tier_precedence_cex :
    (∃ n ∈ exSeedGraph.nodes, n.path = "a") ∧
      (filterGraphByNeighbors exSeedGraph "a" 0).nodes.length = 2 ∧
      (∃ n ∈ (filterGraphByNeighbors exSeedGraph "a" 0).nodes,
        n.path ≠ "a") := by
  decide

/-- C5 (amended): the three match predicates of neighbors mode are
combined as a plain per-node disjunction with no precedence; since exact
equality and a suffix match are both special cases of substring
containment, the seed set is exactly the set of nodes whose path
contains the focus key. -/
theorem c5_seed_match_is_disjunction :
    ∀ (g : Graph) (k : String),
      seedsOf g k = g.nodes.filter (fun n => strContains k n.path) ∧
      ∀ np : String, pathMatches np k = strContains k np := by
  have hpm : ∀ np k : String, pathMatches np k = strContains k np := by
    intro np k
    have h1 : (np == k) = true → strContains k np = true := by
      intro h
      have : np = k := eq_of_beq h
      subst this
      exact decide_eq_true (List.infix_refl _)
    have h2 : strEndsWith np k = true → strContains k np = true := by
      intro h
      have : k.data <:+ np.data := of_decide_eq_true h
      exact decide_eq_true this.isInfix
    rcases hc : strContains k np
    · rcases he : (np == k)
      · rcases hs : strEndsWith np k
        · simp [pathMatches, he, hs, hc]
        · rw [h2 hs] at hc
          exact absurd hc (by simp)
      · rw [h1 he] at hc
        exact absurd hc (by simp)
    · simp [pathMatches, hc]
  intro g k
  refine ⟨?_, fun np => hpm np k⟩
  show g.nodes.filter (fun n => pathMatches n.path k) = _
  exact List.filter_congr (fun n _ => hpm n.path k)

/-- The empty prior graph of the diff scenarios. -/
def exEmptyGraph : Graph := { nodes := [], edges := [] }

/-- New graph containing a two-node import cycle reached through a
longer path first: edges a→x, x→b, a→b, b→a. -/
def exCycleGraph : Graph :=
  { nodes := [],
    edges := [mkImportEdge "a" "x", mkImportEdge "x" "b",
      mkImportEdge "a" "b", mkImportEdge "b" "a"] }

/-- New graph containing only the minimal two-node import cycle. -/
def exTwoCycleGraph : Graph :=
  { nodes := [], edges := [mkImportEdge "a" "b", mkImportEdge "b" "a"] }

/-- Two mutual render edges (no import edges at all). -/
def exRenderCycleGraph : Graph :=
  { nodes := [],
    edges :=
      [{ etype := .render, efrom := "a", eto := "b", status := .normal,
         symbolName := none, importPath := none, position := some 0 },
       { etype := .render, efrom := "b", eto := "a", status := .normal,
         symbolName := none, importPath := none, position := some 0 }] }

/-- C9 counterexample: the new graph contains import edges a→b and b→a,
and the diff does report a circular dependency — but the only reported
cycle path is (a, x, b, a) of length 4: the DFS reaches the two-node
cycle through the longer route first, so no cycle path of length 3 is
included, contrary to the claim. -/
theorem c9_no_length3_cycle_cex :
    mkImportEdge "a" "b" ∈ exCycleGraph.edges ∧
      mkImportEdge "b" "a" ∈ exCycleGraph.edges ∧
      (buildDiff exEmptyGraph exCycleGraph exNoChanges).summary.hasCircularDependency = true ∧
      (buildDiff exEmptyGraph exCycleGraph exNoChanges).summary.circularPaths =
        some [["a", "x", "b", "a"]] ∧
      ∀ p ∈ ((buildDiff exEmptyGraph exCycleGraph
        exNoChanges).summary.circularPaths.getD []), p.length ≠ 3 := by
  decide

/-- C9 (amended): cycle detection runs a DFS over the new graph's
edges of import kind only.  In the minimal scenario (only the a→b and
b→a import edges, diffed against an empty prior graph) the summary reports
`hasCircularDependency = true` with exactly the cycle path (a, b, a) of
length 3; and a new graph without any import-kind edge never reports a
circular dependency, whatever other edge kinds it contains.  (In larger
graphs the reported cycle through a and b may be longer than 3; see the
counterexample.) -/
theorem c9_cycle_detection_amended :
    ((buildDiff exEmptyGraph exTwoCycleGraph
        exNoChanges).summary.hasCircularDependency = true ∧
      (buildDiff exEmptyGraph exTwoCycleGraph
        exNoChanges).summary.circularPaths = some [["a", "b", "a"]]) ∧
    ∀ (oldG newG : Graph) (ch : FileChanges),
      (∀ e ∈ newG.edges, e.etype ≠ .imp) →
      (buildDiff oldG newG ch).summary.hasCircularDependency = false := by
  constructor
  · exact ⟨by decide, by decide⟩
  · intro oldG newG ch hne
    have hadj : ∀ (l : List Edge), (∀ e ∈ l, e.etype ≠ .imp) →
        l.foldl (fun m e =>
          if e.etype == .imp then
            mapSet m e.efrom (setAdd ((mapGet m e.efrom).getD []) e.eto)
          else m) ([] : List (String × List String)) = [] := by
      intro l
      induction l with
      | nil => intro _; rfl
      | cons e es ih =>
        intro h
        rw [List.foldl_cons]
        have he : (e.etype == .imp) = false := by
          have := h e (List.mem_cons_self _ _)
          simp [this]
        rw [if_neg (by simp [he])]
        exact ih (fun e' he' => h e' (List.mem_cons_of_mem _ he'))
    have hdet : detectCircularDependenciesWithPaths newG.edges = (false, []) := by
      simp only [detectCircularDependenciesWithPaths]
      rw [hadj newG.edges hne]
      rfl
    show (detectCircularDependenciesWithPaths newG.edges).1 = false
    rw [hdet]

/-- C9 witness: two mutual render edges never count as a circular
dependency, by the theorem applied at a concrete input. -/
theorem c9_witness :
    (∀ e ∈ exRenderCycleGraph.edges, e.etype ≠ .imp) ∧
      (buildDiff exEmptyGraph exRenderCycleGraph
        exNoChanges).summary.hasCircularDependency = false :=
  ⟨by decide,
    c9_cycle_detection_amended.2 exEmptyGraph exRenderCycleGraph exNoChanges
      (by decide)⟩

theorem coherent_perm {κ β : Type} [DecidableEq κ] [DecidableEq β]
    {l l' : List (κ × β)} (hp : l.Perm l') (h : Coherent l) : Coherent l' :=
  fun p hpm q hqm hk => h p (hp.mem_iff.2 hpm) q (hp.mem_iff.2 hqm) hk

theorem createImportEdges_shape {resolve : String → String → Option String}
    {idMap : List (String × String)} {files : List ParsedFile} {e : Edge}
    (h : e ∈ createImportEdges resolve idMap files) :
    e = mkImportEdge e.efrom e.eto := by
  have hc := dedupByKey_subset h
  rcases List.mem_flatMap.1 hc with ⟨f, _, hmem⟩
  rcases hfid : mapGet idMap f.path with _ | fromId
  · rw [hfid] at hmem
    simp at hmem
  · rw [hfid] at hmem
    rcases List.mem_filterMap.1 hmem with ⟨imp, _, heq⟩
    rcases Option.bind_eq_some.1 heq with ⟨rp, _, h2⟩
    rcases Option.map_eq_some.1 h2 with ⟨toId, _, he⟩
    rw [← he]
    rfl

theorem mem_importCandidates_iff {hash : String → String}
    {resolve : String → String → Option String} {files : List ParsedFile}
    {e : Edge} :
    e ∈ files.flatMap (fun f =>
      match mapGet (mapSetAll [] (fileIdPairs hash files)) f.path with
      | none => []
      | some fromId =>
        f.imports.filterMap (fun imp =>
          (resolve f.path imp.importPath).bind (fun resolvedPath =>
            (mapGet (mapSetAll [] (fileIdPairs hash files))
              resolvedPath).map (fun toId => mkImportEdge fromId toId)))) ↔
      ∃ f ∈ files, ∃ imp ∈ f.imports, ∃ g ∈ files,
        resolve f.path imp.importPath = some g.path ∧
        e = mkImportEdge (generateNodeId hash f.path)
          (generateNodeId hash g.path) := by
  rw [List.mem_flatMap]
  constructor
  · rintro ⟨f, hf, hmem⟩
    rw [mapGet_fileIdMap_of_mem hf] at hmem
    rcases List.mem_filterMap.1 hmem with ⟨imp, himp, heq⟩
    rcases Option.bind_eq_some.1 heq with ⟨rp, hrp, h2⟩
    rcases Option.map_eq_some.1 h2 with ⟨toId, htid, he⟩
    rcases mapGet_fileIdMap_some htid with ⟨⟨g, hg, hgp⟩, hto⟩
    refine ⟨f, hf, imp, himp, g, hg, by rw [hrp, hgp], ?_⟩
    rw [← he, hto, hgp]
  · rintro ⟨f, hf, imp, himp, g, hg, hrp, rfl⟩
    refine ⟨f, hf, ?_⟩
    rw [mapGet_fileIdMap_of_mem hf]
    refine List.mem_filterMap.2 ⟨imp, himp, ?_⟩
    rw [hrp, Option.some_bind, mapGet_fileIdMap_of_mem hg]
    rfl

theorem mem_buildFileGraph_nodes_iff {hash : String → String}
    {resolve : String → String → Option String} {files : List ParsedFile}
    {et : List EdgeType} {v : Node}
    (h1 : ∀ f ∈ files, ∀ g ∈ files,
      generateNodeId hash f.path = generateNodeId hash g.path →
      f.path = g.path) :
    v ∈ (buildFileGraph hash resolve files et).nodes ↔
      ∃ f ∈ files, v = nodeOfFile hash f := by
  have hcoh : Coherent (fileNodePairs hash files) := by
    intro p hp q hq hk
    rcases mem_fileNodePairs.1 hp with ⟨f, hf, hpe⟩
    rcases mem_fileNodePairs.1 hq with ⟨g, hg, hqe⟩
    subst hpe
    subst hqe
    simp only at hk ⊢
    exact nodeOfFile_congr (h1 f hf g hg hk)
  have hnodes : (buildFileGraph hash resolve files et).nodes =
      mapValues (mapSetAll [] (fileNodePairs hash files)) := rfl
  rw [hnodes, mem_mapValues_built hcoh]
  constructor
  · rintro ⟨k, hk⟩
    rcases mem_fileNodePairs.1 hk with ⟨f, hf, hpe⟩
    exact ⟨f, hf, congrArg Prod.snd hpe⟩
  · rintro ⟨f, hf, rfl⟩
    exact ⟨_, mem_fileNodePairs.2 ⟨f, hf, rfl⟩⟩

theorem mem_buildFileGraph_imp_edges_iff {hash : String → String}
    {resolve : String → String → Option String} {files : List ParsedFile}
    {e : Edge} :
    e ∈ (buildFileGraph hash resolve files [.imp]).edges ↔
      ∃ f ∈ files, ∃ imp ∈ f.imports, ∃ g ∈ files,
        resolve f.path imp.importPath = some g.path ∧
        e = mkImportEdge (generateNodeId hash f.path)
          (generateNodeId hash g.path) := by
  have hshape : ∀ x ∈ createImportEdges resolve
      (mapSetAll [] (fileIdPairs hash files)) files ++ [] ++ [],
      x = mkImportEdge x.efrom x.eto := by
    intro x hx
    simp only [List.append_nil] at hx
    exact createImportEdges_shape hx
  have hcoh : Coherent ((createImportEdges resolve
      (mapSetAll [] (fileIdPairs hash files)) files ++ [] ++ []).map
      (fun e => (fileEdgeKey e, e))) := by
    intro p hp q hq hk
    rcases List.mem_map.1 hp with ⟨a, ha, hpe⟩
    rcases List.mem_map.1 hq with ⟨b, hb, hqe⟩
    subst hpe
    subst hqe
    simp only at hk ⊢
    have ha' := hshape a ha
    have hb' := hshape b hb
    rw [ha', hb'] at hk ⊢
    simp only [fileEdgeKey] at hk
    rcases FileEdgeKey.imp.injEq _ _ _ _ ▸ hk with h
    rw [show a.efrom = b.efrom from by
        have := congrArg (fun t => match t with
          | FileEdgeKey.imp f _ => f | _ => "") hk
        simpa using this,
      show a.eto = b.eto from by
        have := congrArg (fun t => match t with
          | FileEdgeKey.imp _ t => t | _ => "") hk
        simpa using this]
  have hedges : (buildFileGraph hash resolve files [.imp]).edges =
      mapValues (mapSetAll [] ((createImportEdges resolve
        (mapSetAll [] (fileIdPairs hash files)) files ++ [] ++ []).map
        (fun e => (fileEdgeKey e, e)))) := rfl
  rw [hedges, mem_mapValues_built hcoh]
  have hdcoh : ∀ a ∈ files.flatMap (fun f =>
      match mapGet (mapSetAll [] (fileIdPairs hash files)) f.path with
      | none => []
      | some fromId =>
        f.imports.filterMap (fun imp =>
          (resolve f.path imp.importPath).bind (fun resolvedPath =>
            (mapGet (mapSetAll [] (fileIdPairs hash files))
              resolvedPath).map (fun toId => mkImportEdge fromId toId)))),
      ∀ b ∈ files.flatMap (fun f =>
        match mapGet (mapSetAll [] (fileIdPairs hash files)) f.path with
        | none => []
        | some fromId =>
          f.imports.filterMap (fun imp =>
            (resolve f.path imp.importPath).bind (fun resolvedPath =>
              (mapGet (mapSetAll [] (fileIdPairs hash files))
                resolvedPath).map (fun toId => mkImportEdge fromId toId)))),
      (fun (x : Edge) => (x.efrom, x.eto)) a =
        (fun (x : Edge) => (x.efrom, x.eto)) b → a = b := by
    intro a ha b hb hk
    rcases mem_importCandidates_iff.1 ha with ⟨_, _, _, _, _, _, _, hae⟩
    rcases mem_importCandidates_iff.1 hb with ⟨_, _, _, _, _, _, _, hbe⟩
    simp only at hk
    rw [hae, hbe]
    rw [hae, hbe] at hk
    simp only [mkImportEdge, Prod.mk.injEq] at hk
    rw [hk.1, hk.2]
  constructor
  · rintro ⟨k, hk⟩
    rcases List.mem_map.1 hk with ⟨a, ha, hpe⟩
    have hae : a = e := congrArg Prod.snd hpe
    subst hae
    simp only [List.append_nil] at ha
    have ha' := dedupByKey_subset ha
    exact mem_importCandidates_iff.1 ha'
  · intro hr
    have he : e ∈ createImportEdges resolve
        (mapSetAll [] (fileIdPairs hash files)) files := by
      unfold createImportEdges
      exact dedupByKey_mem hdcoh (by simp) (mem_importCandidates_iff.2 hr)
    exact ⟨fileEdgeKey e, List.mem_map.2 ⟨e, by simp [he], rfl⟩⟩

theorem mem_buildHierarchyGraph_nodes_iff {hier : String → HierarchyInfo}
    {resolve : String → String → Option String} {files : List ParsedFile}
    {level : Level} {v : Node} :
    v ∈ (buildHierarchyGraph hier resolve files level).nodes ↔
      ∃ f ∈ files, ∃ k, extractHierarchyKey (hier f.path) level = some k ∧
        v = mkHierarchyNode level (levelTag level ++ ":" ++ k) k := by
  have hnodes : (buildHierarchyGraph hier resolve files level).nodes =
      mapValues (mapSetAllIfAbsent [] (parentNodePairs hier level files)) := by
    unfold buildHierarchyGraph
    rw [hierarchyStep1_eq]
  rw [hnodes, mem_mapValues_built_ifAbsent parentNodePairs_coherent]
  constructor
  · rintro ⟨k, hk⟩
    rcases mem_parentNodePairs.1 hk with ⟨f, hf, k1, hk1, hpe⟩
    exact ⟨f, hf, k1, hk1, congrArg Prod.snd hpe⟩
  · rintro ⟨f, hf, k, hk, rfl⟩
    exact ⟨_, mem_parentNodePairs.2 ⟨f, hf, k, hk, rfl⟩⟩

theorem mem_buildHierarchyGraph_edges_iff {hier : String → HierarchyInfo}
    {resolve : String → String → Option String} {files : List ParsedFile}
    {level : Level} {e : Edge} :
    e ∈ (buildHierarchyGraph hier resolve files level).edges ↔
      ∃ g1 g2, g1 ≠ g2 ∧
        hierarchyCrossing hier resolve level files g1 g2 ∧
        e = mkImportEdge (levelTag level ++ ":" ++ g1)
          (levelTag level ++ ":" ++ g2) := by
  have hedges : (buildHierarchyGraph hier resolve files level).edges =
      mapValues (mapSetAllIfAbsent [] (hierarchyEdgeCandidates resolve
        (mapSetAll [] (fileToParentPairs hier level files)) files)) := by
    unfold buildHierarchyGraph
    rw [hierarchyStep1_eq]
  rw [hedges, mem_mapValues_built_ifAbsent hierarchyEdgeCandidates_coherent]
  constructor
  · rintro ⟨k, hk⟩
    rcases mem_hierarchyEdgeCandidates.1 hk with
      ⟨f, hf, imp, himp, rp, fp, tp, hrp, hfp, htp, hne, hce⟩
    rcases mapGet_fileToParent_some hfp with ⟨_, k1, hk1, hpid1⟩
    rcases mapGet_fileToParent_some htp with ⟨⟨g, hg, hgp⟩, k2, hk2, hpid2⟩
    refine ⟨k1, k2, ?_, ⟨f, hf, imp, himp, g, hg, by rw [hrp, hgp], hk1,
      by rw [hgp]; exact hk2⟩, ?_⟩
    · intro hcon
      exact hne (by rw [hpid1, hpid2, hcon])
    · have : e = mkImportEdge fp tp := congrArg Prod.snd hce
      rw [this, hpid1, hpid2]
  · rintro ⟨g1, g2, hne, ⟨f, hf, imp, himp, g, hg, hrp, hk1, hk2⟩, rfl⟩
    refine ⟨(levelTag level ++ ":" ++ g1, levelTag level ++ ":" ++ g2),
      mem_hierarchyEdgeCandidates.2 ⟨f, hf, imp, himp, g.path, _, _, hrp,
        mapGet_fileToParent_of_mem hf hk1,
        mapGet_fileToParent_of_mem hg hk2, ?_, rfl⟩⟩
    intro hcon
    exact hne (string_append_cancel_left hcon)

theorem mem_buildInterfaceGraph_nodes_iff {hash : String → String}
    {files : List ParsedFile} {v : Node}
    (h2 : Coherent (typeNodePairs hash files)) :
    v ∈ (buildInterfaceGraph hash files).nodes ↔
      ∃ f ∈ files, ∃ td ∈ f.typeDefinitions.getD [],
        v = mkAbstractNode hash f.path td := by
  have hnodes : (buildInterfaceGraph hash files).nodes =
      mapValues (mapSetAll [] (typeNodePairs hash files)) := rfl
  rw [hnodes, mem_mapValues_built h2]
  constructor
  · rintro ⟨k, hk⟩
    rcases mem_typeNodePairs.1 hk with ⟨f, hf, td, htd, hpe⟩
    exact ⟨f, hf, td, htd, congrArg Prod.snd hpe⟩
  · rintro ⟨f, hf, td, htd, rfl⟩
    exact ⟨_, mem_typeNodePairs.2 ⟨f, hf, td, htd, rfl⟩⟩

theorem typeEdgeCandidates_coherent {hash : String → String}
    {files : List ParsedFile}
    (h3 : Coherent (typeNamePairs hash files))
    (h4 : ∀ p ∈ typeNamePairs hash files, ∀ q ∈ typeNamePairs hash files,
      p.2 = q.2 → p.1 = q.1) :
    Coherent (typeEdgeCandidates
      (mapSetAll [] (typeNamePairs hash files)) files) := by
  have hget : ∀ {n i : String},
      mapGet (mapSetAll [] (typeNamePairs hash files)) n = some i →
      (n, i) ∈ typeNamePairs hash files := fun h => (mapGet_built h3).1 h
  intro p hp q hq hk
  rcases mem_typeEdgeCandidates.1 hp with ⟨_, _, _, _, fp, hfp, hcp⟩
  rcases mem_typeEdgeCandidates.1 hq with ⟨_, _, _, _, fq, hfq, hcq⟩
  rcases hcp with ⟨ex1, _, t1, ht1, hpe⟩ | ⟨im1, _, t1, ht1, hpe⟩ |
    ⟨r1, _, t1, ht1, hne1, hpe⟩ <;>
    rcases hcq with ⟨ex2, _, t2, ht2, hqe⟩ | ⟨im2, _, t2, ht2, hqe⟩ |
      ⟨r2, _, t2, ht2, hne2, hqe⟩ <;>
    rw [hpe, hqe] at hk ⊢ <;> simp only at hk
  case _ =>
    show mkTypeImplementEdge fp t1 ex1 = mkTypeImplementEdge fq t2 ex2
    injection hk with h1 h2
    subst h1
    subst h2
    have h5 : ex1 = ex2 := h4 _ (hget ht1) _ (hget ht2) rfl
    rw [h5]
  case _ => exact absurd hk (by simp)
  case _ => exact absurd hk (by simp)
  case _ => exact absurd hk (by simp)
  case _ =>
    show mkTypeImplementEdge fp t1 im1 = mkTypeImplementEdge fq t2 im2
    injection hk with h1 h2
    subst h1
    subst h2
    have h5 : im1 = im2 := h4 _ (hget ht1) _ (hget ht2) rfl
    rw [h5]
  case _ => exact absurd hk (by simp)
  case _ => exact absurd hk (by simp)
  case _ => exact absurd hk (by simp)
  case _ =>
    show mkTypeUseEdge fp t1 r1 = mkTypeUseEdge fq t2 r2
    injection hk with h1 h2
    subst h1
    subst h2
    have h5 : r1 = r2 := h4 _ (hget ht1) _ (hget ht2) rfl
    rw [h5]

theorem mem_buildInterfaceGraph_edges_iff {hash : String → String}
    {files : List ParsedFile} {e : Edge}
    (h3 : Coherent (typeNamePairs hash files))
    (h4 : ∀ p ∈ typeNamePairs hash files, ∀ q ∈ typeNamePairs hash files,
      p.2 = q.2 → p.1 = q.1) :
    e ∈ (buildInterfaceGraph hash files).edges ↔
      ∃ f ∈ files, ∃ td ∈ f.typeDefinitions.getD [], ∃ fromId,
        (td.name, fromId) ∈ typeNamePairs hash files ∧
        ((∃ ex ∈ td.exts, ∃ toId, (ex, toId) ∈ typeNamePairs hash files ∧
            e = mkTypeImplementEdge fromId toId ex) ∨
         (∃ im ∈ td.impls, ∃ toId, (im, toId) ∈ typeNamePairs hash files ∧
            e = mkTypeImplementEdge fromId toId im) ∨
         (∃ r ∈ td.references, ∃ toId, (r, toId) ∈ typeNamePairs hash files ∧
            toId ≠ fromId ∧ e = mkTypeUseEdge fromId toId r)) := by
  have hedges : (buildInterfaceGraph hash files).edges =
      mapValues (mapSetAllIfAbsent [] (typeEdgeCandidates
        (mapSetAll [] (typeNamePairs hash files)) files)) := rfl
  rw [hedges, mem_mapValues_built_ifAbsent (typeEdgeCandidates_coherent h3 h4)]
  constructor
  · rintro ⟨k, hk⟩
    rcases mem_typeEdgeCandidates.1 hk with ⟨f, hf, td, htd, fromId, hfid, hc⟩
    refine ⟨f, hf, td, htd, fromId, (mapGet_built h3).1 hfid, ?_⟩
    rcases hc with ⟨ex, hex, toId, ht, hce⟩ | ⟨im, him, toId, ht, hce⟩ |
      ⟨r, hr, toId, ht, hne, hce⟩
    · exact Or.inl ⟨ex, hex, toId, (mapGet_built h3).1 ht,
        congrArg Prod.snd hce⟩
    · exact Or.inr (Or.inl ⟨im, him, toId, (mapGet_built h3).1 ht,
        congrArg Prod.snd hce⟩)
    · exact Or.inr (Or.inr ⟨r, hr, toId, (mapGet_built h3).1 ht, hne,
        congrArg Prod.snd hce⟩)
  · rintro ⟨f, hf, td, htd, fromId, hfid, hc⟩
    rcases hc with ⟨ex, hex, toId, ht, rfl⟩ | ⟨im, him, toId, ht, rfl⟩ |
      ⟨r, hr, toId, ht, hne, rfl⟩
    · exact ⟨TypeEdgeKey.ext fromId toId, mem_typeEdgeCandidates.2
        ⟨f, hf, td, htd, fromId, (mapGet_built h3).2 hfid,
          Or.inl ⟨ex, hex, toId, (mapGet_built h3).2 ht, rfl⟩⟩⟩
    · exact ⟨TypeEdgeKey.impl fromId toId, mem_typeEdgeCandidates.2
        ⟨f, hf, td, htd, fromId, (mapGet_built h3).2 hfid,
          Or.inr (Or.inl ⟨im, him, toId, (mapGet_built h3).2 ht, rfl⟩)⟩⟩
    · exact ⟨TypeEdgeKey.uses fromId toId, mem_typeEdgeCandidates.2
        ⟨f, hf, td, htd, fromId, (mapGet_built h3).2 hfid,
          Or.inr (Or.inr ⟨r, hr, toId, (mapGet_built h3).2 ht, hne, rfl⟩)⟩⟩

/-- Interface type `X`, declared in two different files in the
counterexample. -/
def exTypeX : TypeDef :=
  { kind := .iface, name := "X", isExported := true, exts := [], impls := [],
    references := [] }

/-- Interface `Y extends X`. -/
def exTypeY : TypeDef :=
  { kind := .iface, name := "Y", isExported := true, exts := ["X"],
    impls := [], references := [] }

/-- First file declaring `X`. -/
def exTFile1 : ParsedFile :=
  { path := "a", imports := [], implements := none, renders := none,
    typeDefinitions := some [exTypeX] }

/-- Second file declaring the same-named `X`. -/
def exTFile2 : ParsedFile :=
  { path := "b", imports := [], implements := none, renders := none,
    typeDefinitions := some [exTypeX] }

/-- File declaring `Y extends X`. -/
def exTFile3 : ParsedFile :=
  { path := "c", imports := [], implements := none, renders := none,
    typeDefinitions := some [exTypeY] }

/-- C7 counterexample: two files declare a type named `X`; because the
name-to-id map is last-writer-wins, swapping those two files changes the
target id of the `Y extends X` edge, so the interface-level edge set is
not stable under permutation of the input file list. -/
theorem c7_interface_order_dependent_cex :
    [exTFile1, exTFile2, exTFile3].Perm [exTFile2, exTFile1, exTFile3] ∧
      (buildInterfaceGraph exHashFn
        [exTFile1, exTFile2, exTFile3]).edges.toFinset ≠
      (buildInterfaceGraph exHashFn
        [exTFile2, exTFile1, exTFile3]).edges.toFinset := by
  constructor
  · decide
  · decide

/-- C7 (amended): when node-id generation is injective on the input
paths and no two type definitions collide on node id, name, or
name-to-id value (in particular when type names are globally unique),
permuting the input file list preserves the node set and the edge set of
the file-level graph (with the default import edge kind, import
resolution being a fixed function of file and specifier), of the
hierarchy graph at every level, and of the interface-level graph.
Without the uniqueness proviso the interface-level edge set is order
dependent (see the counterexample). -/
theorem c7_permutation_stability_amended :
    ∀ (hier : String → HierarchyInfo) (hash : String → String)
      (resolve : String → String → Option String)
      (files files' : List ParsedFile),
      files.Perm files' →
      (∀ f ∈ files, ∀ g ∈ files,
        generateNodeId hash f.path = generateNodeId hash g.path →
        f.path = g.path) →
      Coherent (typeNodePairs hash files) →
      Coherent (typeNamePairs hash files) →
      (∀ p ∈ typeNamePairs hash files, ∀ q ∈ typeNamePairs hash files,
        p.2 = q.2 → p.1 = q.1) →
      ((buildFileGraph hash resolve files [.imp]).nodes.toFinset =
          (buildFileGraph hash resolve files' [.imp]).nodes.toFinset ∧
        (buildFileGraph hash resolve files [.imp]).edges.toFinset =
          (buildFileGraph hash resolve files' [.imp]).edges.toFinset) ∧
      (∀ level : Level,
        (buildHierarchyGraph hier resolve files level).nodes.toFinset =
          (buildHierarchyGraph hier resolve files' level).nodes.toFinset ∧
        (buildHierarchyGraph hier resolve files level).edges.toFinset =
          (buildHierarchyGraph hier resolve files' level).edges.toFinset) ∧
      ((buildInterfaceGraph hash files).nodes.toFinset =
          (buildInterfaceGraph hash files').nodes.toFinset ∧
        (buildInterfaceGraph hash files).edges.toFinset =
          (buildInterfaceGraph hash files').edges.toFinset) := by
  intro hier hash resolve files files' hp h1 h2 h3 h4
  have h1' : ∀ f ∈ files', ∀ g ∈ files',
      generateNodeId hash f.path = generateNodeId hash g.path →
      f.path = g.path :=
    fun f hf g hg => h1 f (hp.mem_iff.2 hf) g (hp.mem_iff.2 hg)
  have hpn : (typeNodePairs hash files).Perm (typeNodePairs hash files') :=
    hp.flatMap_right _
  have hpm : (typeNamePairs hash files).Perm (typeNamePairs hash files') :=
    hp.flatMap_right _
  have h2' := coherent_perm hpn h2
  have h3' := coherent_perm hpm h3
  have h4' : ∀ p ∈ typeNamePairs hash files',
      ∀ q ∈ typeNamePairs hash files', p.2 = q.2 → p.1 = q.1 :=
    fun p hpq q hq => h4 p (hpm.mem_iff.2 hpq) q (hpm.mem_iff.2 hq)
  refine ⟨⟨?_, ?_⟩, fun level => ⟨?_, ?_⟩, ?_, ?_⟩
  · refine Finset.ext (fun v => ?_)
    rw [List.mem_toFinset, List.mem_toFinset,
      mem_buildFileGraph_nodes_iff h1, mem_buildFileGraph_nodes_iff h1']
    constructor
    · rintro ⟨f, hf, rfl⟩
      exact ⟨f, hp.mem_iff.1 hf, rfl⟩
    · rintro ⟨f, hf, rfl⟩
      exact ⟨f, hp.mem_iff.2 hf, rfl⟩
  · refine Finset.ext (fun e => ?_)
    rw [List.mem_toFinset, List.mem_toFinset,
      mem_buildFileGraph_imp_edges_iff, mem_buildFileGraph_imp_edges_iff]
    constructor
    · rintro ⟨f, hf, imp, himp, g, hg, hr, rfl⟩
      exact ⟨f, hp.mem_iff.1 hf, imp, himp, g, hp.mem_iff.1 hg, hr, rfl⟩
    · rintro ⟨f, hf, imp, himp, g, hg, hr, rfl⟩
      exact ⟨f, hp.mem_iff.2 hf, imp, himp, g, hp.mem_iff.2 hg, hr, rfl⟩
  · refine Finset.ext (fun v => ?_)
    rw [List.mem_toFinset, List.mem_toFinset,
      mem_buildHierarchyGraph_nodes_iff, mem_buildHierarchyGraph_nodes_iff]
    constructor
    · rintro ⟨f, hf, k, hk, rfl⟩
      exact ⟨f, hp.mem_iff.1 hf, k, hk, rfl⟩
    · rintro ⟨f, hf, k, hk, rfl⟩
      exact ⟨f, hp.mem_iff.2 hf, k, hk, rfl⟩
  · refine Finset.ext (fun e => ?_)
    rw [List.mem_toFinset, List.mem_toFinset,
      mem_buildHierarchyGraph_edges_iff, mem_buildHierarchyGraph_edges_iff]
    constructor
    · rintro ⟨g1, g2, hne, ⟨f, hf, imp, himp, g, hg, hr, hk1, hk2⟩, rfl⟩
      exact ⟨g1, g2, hne, ⟨f, hp.mem_iff.1 hf, imp, himp, g,
        hp.mem_iff.1 hg, hr, hk1, hk2⟩, rfl⟩
    · rintro ⟨g1, g2, hne, ⟨f, hf, imp, himp, g, hg, hr, hk1, hk2⟩, rfl⟩
      exact ⟨g1, g2, hne, ⟨f, hp.mem_iff.2 hf, imp, himp, g,
        hp.mem_iff.2 hg, hr, hk1, hk2⟩, rfl⟩
  · refine Finset.ext (fun v => ?_)
    rw [List.mem_toFinset, List.mem_toFinset,
      mem_buildInterfaceGraph_nodes_iff h2, mem_buildInterfaceGraph_nodes_iff h2']
    constructor
    · rintro ⟨f, hf, td, htd, rfl⟩
      exact ⟨f, hp.mem_iff.1 hf, td, htd, rfl⟩
    · rintro ⟨f, hf, td, htd, rfl⟩
      exact ⟨f, hp.mem_iff.2 hf, td, htd, rfl⟩
  · refine Finset.ext (fun e => ?_)
    rw [List.mem_toFinset, List.mem_toFinset,
      mem_buildInterfaceGraph_edges_iff h3 h4,
      mem_buildInterfaceGraph_edges_iff h3' h4']
    constructor
    · rintro ⟨f, hf, td, htd, fromId, hn, hc⟩
      refine ⟨f, hp.mem_iff.1 hf, td, htd, fromId, hpm.mem_iff.1 hn, ?_⟩
      rcases hc with ⟨ex, hex, toId, ht, rfl⟩ | ⟨im, him, toId, ht, rfl⟩ |
        ⟨r, hr, toId, ht, hne, rfl⟩
      · exact Or.inl ⟨ex, hex, toId, hpm.mem_iff.1 ht, rfl⟩
      · exact Or.inr (Or.inl ⟨im, him, toId, hpm.mem_iff.1 ht, rfl⟩)
      · exact Or.inr (Or.inr ⟨r, hr, toId, hpm.mem_iff.1 ht, hne, rfl⟩)
    · rintro ⟨f, hf, td, htd, fromId, hn, hc⟩
      refine ⟨f, hp.mem_iff.2 hf, td, htd, fromId, hpm.mem_iff.2 hn, ?_⟩
      rcases hc with ⟨ex, hex, toId, ht, rfl⟩ | ⟨im, him, toId, ht, rfl⟩ |
        ⟨r, hr, toId, ht, hne, rfl⟩
      · exact Or.inl ⟨ex, hex, toId, hpm.mem_iff.2 ht, rfl⟩
      · exact Or.inr (Or.inl ⟨im, him, toId, hpm.mem_iff.2 ht, rfl⟩)
      · exact Or.inr (Or.inr ⟨r, hr, toId, hpm.mem_iff.2 ht, hne, rfl⟩)

/-- Coherence of a concrete pair list is decidable. -/
instance {κ β : Type} [DecidableEq κ] [DecidableEq β] (ps : List (κ × β)) :
    Decidable (Coherent ps) := by
  unfold Coherent
  infer_instance

/-- C7 witness: on a concrete mixed input (two importing files and two
type-declaring files with distinct type names), swapping the first two
files preserves the file-level node set and the interface-level edge
set, by the theorem with all hypotheses discharged by evaluation. -/
theorem c7_witness :
    ([exFileA, exFileB, exTFile1, exTFile3].Perm
        [exFileB, exFileA, exTFile1, exTFile3]) ∧
      Coherent (typeNamePairs exHashFn [exFileA, exFileB, exTFile1, exTFile3]) ∧
      (buildInterfaceGraph exHashFn
          [exFileA, exFileB, exTFile1, exTFile3]).edges.toFinset =
        (buildInterfaceGraph exHashFn
          [exFileB, exFileA, exTFile1, exTFile3]).edges.toFinset ∧
      (buildFileGraph exHashFn exResolveFn
          [exFileA, exFileB, exTFile1, exTFile3] [.imp]).nodes.toFinset =
        (buildFileGraph exHashFn exResolveFn
          [exFileB, exFileA, exTFile1, exTFile3] [.imp]).nodes.toFinset :=
  ⟨by decide, by decide,
    (c7_permutation_stability_amended exHierFn exHashFn exResolveFn
      [exFileA, exFileB, exTFile1, exTFile3]
      [exFileB, exFileA, exTFile1, exTFile3]
      (by decide) (by decide) (by decide) (by decide) (by decide)).2.2.2,
    (c7_permutation_stability_amended exHierFn exHashFn exResolveFn
      [exFileA, exFileB, exTFile1, exTFile3]
      [exFileB, exFileA, exTFile1, exTFile3]
      (by decide) (by decide) (by decide) (by decide) (by decide)).1.1⟩
